import Mathlib

/-!
Verification development for the openpmu-61850-sv-bridge repository.

The Rust sources are shallowly embedded:
* byte slices become `List Nat` (each element a byte value `< 256`);
* `&mut BytesReader` methods returning `Result<T, E>` become pure functions
  `BytesReader → Except E T × BytesReader`, where the second component is the
  reader after the call (on the error path the Rust code never assigns
  `self.bytes`, so the reader is returned unchanged there);
* machine integers are `Nat` with explicit `% 2^w` at the points where the
  Rust code can wrap (release-profile two's-complement semantics);
* `f32` / `f64` values are modelled exactly by an inductive type carrying a
  rational for finite values plus NaN and infinities, with IEEE-754
  round-to-nearest-even implemented over `ℚ` (sign of zero is dropped: no
  operation appearing in this code base distinguishes `-0.0` from `0.0`).
-/

/-! ## Byte reader (src/bytes.rs) -/

inductive BytesReaderError where
  | EndOfBuffer
  deriving DecidableEq, Repr

structure BytesReader where
  bytes : List Nat
  deriving DecidableEq, Repr

namespace BytesReader

/-- `peek_bytes`: `self.bytes.get(..length)` — succeeds iff `length ≤ len`. -/
def peek_bytes (r : BytesReader) (length : Nat) : Except BytesReaderError (List Nat) :=
  if length ≤ r.bytes.length then .ok (r.bytes.take length) else .error .EndOfBuffer

/-- `read_bytes`: `split_at_checked`; on failure `self.bytes` is not assigned. -/
def read_bytes (r : BytesReader) (length : Nat) :
    Except BytesReaderError (List Nat) × BytesReader :=
  if length ≤ r.bytes.length then
    (.ok (r.bytes.take length), ⟨r.bytes.drop length⟩)
  else
    (.error .EndOfBuffer, r)

/-- `read_u8_array::<N>` is `read_bytes(N)` (the `[u8; N]` conversion never fails). -/
def read_u8_array (r : BytesReader) (n : Nat) :
    Except BytesReaderError (List Nat) × BytesReader :=
  r.read_bytes n

/-- `peek_sub_reader`. -/
def peek_sub_reader (r : BytesReader) (length : Nat) : Except BytesReaderError BytesReader :=
  (r.peek_bytes length).map BytesReader.mk

/-- `take_sub_reader`. -/
def take_sub_reader (r : BytesReader) (length : Nat) :
    Except BytesReaderError BytesReader × BytesReader :=
  match r.read_bytes length with
  | (.ok bs, r') => (.ok ⟨bs⟩, r')
  | (.error e, r') => (.error e, r')

/-- `limit`: truncate the remaining view to `length` bytes. -/
def limit (r : BytesReader) (length : Nat) : Except BytesReaderError Unit × BytesReader :=
  if length ≤ r.bytes.length then (.ok (), ⟨r.bytes.take length⟩) else (.error .EndOfBuffer, r)

/-- `skip`. -/
def skip (r : BytesReader) (length : Nat) : Except BytesReaderError Unit × BytesReader :=
  if length ≤ r.bytes.length then (.ok (), ⟨r.bytes.drop length⟩) else (.error .EndOfBuffer, r)

/-- `peek_u8`. -/
def peek_u8 (r : BytesReader) : Except BytesReaderError Nat :=
  match r.bytes with
  | [] => .error .EndOfBuffer
  | b :: _ => .ok b

/-- `read_u8`. -/
def read_u8 (r : BytesReader) : Except BytesReaderError Nat × BytesReader :=
  match r.bytes with
  | [] => (.error .EndOfBuffer, r)
  | b :: rest => (.ok b, ⟨rest⟩)

/-- `read_u16_be`: `read_u8_array::<2>` followed by `u16::from_be_bytes`. -/
def read_u16_be (r : BytesReader) : Except BytesReaderError Nat × BytesReader :=
  match r.read_u8_array 2 with
  | (.ok bs, r') => (.ok (bs.headI * 256 + (bs.drop 1).headI), r')
  | (.error e, r') => (.error e, r')

/-- `is_empty`. -/
def is_empty (r : BytesReader) : Bool :=
  r.bytes.isEmpty

end BytesReader

/-! ## BER decoder (src/ber.rs) -/

inductive Tag where
  | Universal (n : Nat)
  | Application (n : Nat)
  | ContextSpecific (n : Nat)
  | Private (n : Nat)
  deriving DecidableEq, Repr

inductive Encoding where
  | Primitive
  | Constructed
  deriving DecidableEq, Repr

structure Identifier where
  tag : Tag
  encoding : Encoding
  deriving DecidableEq, Repr

inductive DecodeError where
  | UnexpectedTag
  | TagOutOfRange
  | IndefiniteLength
  | ReservedLength
  | LengthOutOfRange
  | InvalidIntegerEncoding
  | IntegerOutOfRange
  | ConstructedString
  | InvalidVisibleString
  | ReadError (e : BytesReaderError)
  deriving DecidableEq, Repr

/-- Sequencing helper for `&mut reader` functions returning `Result`: `x?`
short-circuits, and the reader state at the point of failure is kept. -/
def decStep {α β : Type} (x : Except DecodeError α × BytesReader)
    (k : α → BytesReader → Except DecodeError β × BytesReader) :
    Except DecodeError β × BytesReader :=
  match x with
  | (.ok a, r) => k a r
  | (.error e, r) => (.error e, r)

/-- Lift a byte-reader result into the decoder error type (the `#[from]` impl). -/
def liftRead {α : Type} (x : Except BytesReaderError α × BytesReader) :
    Except DecodeError α × BytesReader :=
  match x with
  | (.ok a, r) => (.ok a, r)
  | (.error e, r) => (.error (.ReadError e), r)

/-- The multi-byte tag-number loop in `read_identifier`.  Each iteration does
`num <<= 7; num |= next & 0x7f` on a `u32` (the shift discards high bits), then
breaks if the continuation bit is clear, and otherwise fails `TagOutOfRange`
when fewer than 7 leading zero bits remain (`num ≥ 2^25`). -/
def readTagNumLoop (num : Nat) : List Nat → Except DecodeError Nat × List Nat
  | [] => (.error (.ReadError .EndOfBuffer), [])
  | b :: rest =>
    let num2 := num * 128 % 2 ^ 32 + b % 128
    if b % 256 < 128 then
      (.ok num2, rest)
    else if 2 ^ 25 ≤ num2 then
      (.error .TagOutOfRange, rest)
    else
      readTagNumLoop num2 rest

/-- `read_identifier`. -/
def read_identifier (r : BytesReader) : Except DecodeError Identifier × BytesReader :=
  decStep (liftRead r.read_u8) fun first_byte r =>
  let encoding := if first_byte % 64 < 32 then Encoding.Primitive else Encoding.Constructed
  decStep
    (if first_byte % 32 = 31 then
      match readTagNumLoop 0 r.bytes with
      | (.ok n, rest) => (.ok n, ⟨rest⟩)
      | (.error e, rest) => (.error e, ⟨rest⟩)
    else
      (.ok (first_byte % 32), r))
    fun num r =>
  let tag :=
    match first_byte / 64 % 4 with
    | 0 => Tag.Universal num
    | 1 => Tag.Application num
    | 2 => Tag.ContextSpecific num
    | _ => Tag.Private num
  (.ok ⟨tag, encoding⟩, r)

/-- `read_required_identifier`. -/
def read_required_identifier (r : BytesReader) (tag : Tag) :
    Except DecodeError Encoding × BytesReader :=
  decStep (read_identifier r) fun identifier r =>
  if identifier.tag = tag then (.ok identifier.encoding, r) else (.error .UnexpectedTag, r)

/-- `read_optional_identifier`: peeks with a cloned reader, committing the
cursor only when the tag matches. -/
def read_optional_identifier (r : BytesReader) (tag : Tag) :
    Except DecodeError (Option Encoding) × BytesReader :=
  if r.is_empty then
    (.ok none, r)
  else
    match read_identifier r with
    | (.ok identifier, peek_r) =>
      if identifier.tag = tag then (.ok (some identifier.encoding), peek_r) else (.ok none, r)
    | (.error e, _) => (.error e, r)

/-- The long-form loop of `read_length`: `count` iterations, each first failing
`LengthOutOfRange` when the `usize` accumulator has fewer than 8 leading zero
bits (`acc ≥ 2^56`), then `acc = (acc << 8) | byte`. -/
def readLengthLoop : Nat → Nat → BytesReader → Except DecodeError Nat × BytesReader
  | 0, acc, r => (.ok acc, r)
  | count + 1, acc, r =>
    if 2 ^ 56 ≤ acc then
      (.error .LengthOutOfRange, r)
    else
      decStep (liftRead r.read_u8) fun b r =>
        readLengthLoop count (acc * 256 % 2 ^ 64 + b) r

/-- `read_length`. -/
def read_length (r : BytesReader) : Except DecodeError Nat × BytesReader :=
  decStep (liftRead r.read_u8) fun value r =>
  if value < 128 then (.ok value, r)
  else if value = 128 then (.error .IndefiniteLength, r)
  else if value = 255 then (.error .ReservedLength, r)
  else readLengthLoop (value % 128) 0 r

/-- The slice-pattern match at the heart of `read_integer_as_u16`, with the
Rust arms checked in order. -/
def intBytesToU16 : List Nat → Except DecodeError Nat
  | [] => .error .InvalidIntegerEncoding
  | [b0] =>
    if 128 ≤ b0 then .error .IntegerOutOfRange else .ok b0
  | b0 :: b1 :: rest =>
    if b0 = 0 ∧ b1 < 128 then .error .InvalidIntegerEncoding
    else if b0 = 255 ∧ 128 ≤ b1 then .error .InvalidIntegerEncoding
    else if 128 ≤ b0 then .error .IntegerOutOfRange
    else
      match rest with
      | [] => .ok (b0 * 256 + b1)
      | [b2] => if b0 = 0 then .ok (b1 * 256 + b2) else .error .IntegerOutOfRange
      | _ => .error .IntegerOutOfRange

/-- `read_integer_as_u16`. -/
def read_integer_as_u16 (r : BytesReader) (encoding : Encoding) :
    Except DecodeError Nat × BytesReader :=
  if encoding ≠ Encoding.Primitive then
    (.error .InvalidIntegerEncoding, r)
  else
    decStep (read_length r) fun length r =>
    decStep (liftRead (r.read_bytes length)) fun bs r =>
    (intBytesToU16 bs, r)

/-- `read_octet_string`. -/
def read_octet_string (r : BytesReader) (encoding : Encoding) :
    Except DecodeError (List Nat) × BytesReader :=
  if encoding = Encoding.Constructed then
    (.error .ConstructedString, r)
  else
    decStep (read_length r) fun length r =>
    liftRead (r.read_bytes length)

/-- `read_visiblestring` (the `&str` result is identified with its bytes). -/
def read_visiblestring (r : BytesReader) (encoding : Encoding) :
    Except DecodeError (List Nat) × BytesReader :=
  if encoding = Encoding.Constructed then
    (.error .ConstructedString, r)
  else
    decStep (read_length r) fun length r =>
    decStep (liftRead (r.read_bytes length)) fun bs r =>
    if bs.all fun b => 32 ≤ b ∧ b ≤ 126 then (.ok bs, r) else (.error .InvalidVisibleString, r)

/-! ## Exact model of IEEE-754 binary32 / binary64 values

A float is NaN, a signed infinity, or a finite value carried exactly as a
rational.  `roundQ prec emin expTop` is round-to-nearest, ties-to-even onto
the format with `prec` mantissa bits, minimum (subnormal) exponent `emin` and
overflow threshold `2 ^ expTop`; binary32 is `roundQ 24 (-149) 128` and
binary64 is `roundQ 53 (-1074) 1024`. -/

inductive Fp where
  | nan
  | inf (neg : Bool)
  | fin (q : ℚ)
  deriving DecidableEq, Repr

/-- Fuel-based binary logarithm (structural recursion, so that concrete
instances reduce inside the kernel). -/
def natLog2Go : Nat → Nat → Nat
  | 0, _ => 0
  | fuel + 1, n => if n < 2 then 0 else 1 + natLog2Go fuel (n / 2)

/-- `⌊log₂ n⌋` for positive `n` (0 for `n = 0`). -/
def natLog2 (n : Nat) : Nat :=
  natLog2Go n n

/-- Is `n / d < 2^e`?  (`n`, `d` positive.) -/
def pairLtPow2 (n d : ℕ) (e : ℤ) : Bool :=
  if 0 ≤ e then n < d * 2 ^ e.toNat else n * 2 ^ (-e).toNat < d

/-- `⌊log₂ (n / d)⌋` for positive `n`, `d`.  All arithmetic is on integers so
that concrete instances reduce inside the kernel (`Rat` multiplication does
not). -/
def pairLog2 (n d : ℕ) : ℤ :=
  let e0 : ℤ := (natLog2 n : ℤ) - (natLog2 d : ℤ)
  if pairLtPow2 n d e0 then e0 - 1 else e0

/-- `⌊num / den⌋` for a signed fraction with positive denominator
(`Int` division is Euclidean, hence floor division for a positive divisor). -/
def pairFloor (num : ℤ) (den : ℕ) : ℤ :=
  num / (den : ℤ)

/-- Round `num / den` (with `den > 0`) to an integer, half to even. -/
def rhePair (num : ℤ) (den : ℕ) : ℤ :=
  let f := pairFloor num den
  let rem := num - f * den
  if 2 * rem < (den : ℤ) then f
  else if (den : ℤ) < 2 * rem then f + 1
  else if f % 2 = 0 then f else f + 1

/-- Round-to-nearest-even of `num / den` (with `den > 0`) onto a binary
floating-point format. -/
def roundPair (prec : ℕ) (emin expTop : ℤ) (num : ℤ) (den : ℕ) : Fp :=
  if num = 0 then .fin 0
  else
    let expo := max (pairLog2 num.natAbs den - ((prec : ℤ) - 1)) emin
    let m :=
      if 0 ≤ expo then rhePair num (den * 2 ^ expo.toNat)
      else rhePair (num * 2 ^ (-expo).toNat) den
    if 2 ^ (expTop - expo).toNat ≤ m.natAbs then .inf (num < 0)
    else if 0 ≤ expo then .fin (mkRat (m * 2 ^ expo.toNat) 1)
    else .fin (mkRat m (2 ^ (-expo).toNat))

def roundF32 (q : ℚ) : Fp := roundPair 24 (-149) 128 q.num q.den

def roundF64 (q : ℚ) : Fp := roundPair 53 (-1074) 1024 q.num q.den

/-- IEEE multiplication; `roundP` rounds an exact signed fraction. -/
def fpMul (roundP : ℤ → ℕ → Fp) : Fp → Fp → Fp
  | .nan, _ => .nan
  | _, .nan => .nan
  | .inf s, .inf t => .inf (xor s t)
  | .inf s, .fin q => if q = 0 then .nan else .inf (xor s (decide (q < 0)))
  | .fin q, .inf t => if q = 0 then .nan else .inf (xor (decide (q < 0)) t)
  | .fin a, .fin b => roundP (a.num * b.num) (a.den * b.den)

/-- IEEE division; `roundP` rounds an exact signed fraction. -/
def fpDiv (roundP : ℤ → ℕ → Fp) : Fp → Fp → Fp
  | .nan, _ => .nan
  | _, .nan => .nan
  | .inf _, .inf _ => .nan
  | .inf s, .fin q => .inf (xor s (decide (q < 0)))
  | .fin _, .inf _ => .fin 0
  | .fin a, .fin b =>
    if b = 0 then (if a = 0 then .nan else .inf (decide (a < 0)))
    else roundP (a.num * b.den * b.num.sign) (a.den * b.num.natAbs)

/-- IEEE `≤` (false whenever an operand is NaN). -/
def fpLe : Fp → Fp → Bool
  | .nan, _ => false
  | _, .nan => false
  | .inf true, _ => true
  | .inf false, .inf false => true
  | .inf false, _ => false
  | .fin _, .inf s => !s
  | .fin a, .fin b => decide (a ≤ b)

/-- IEEE `<` (false whenever an operand is NaN). -/
def fpLt : Fp → Fp → Bool
  | .nan, _ => false
  | _, .nan => false
  | .inf true, .inf true => false
  | .inf true, _ => true
  | .inf false, _ => false
  | .fin _, .inf s => !s
  | .fin a, .fin b => decide (a < b)

/-- Rust `f32::max` / `f64::max`: if one argument is NaN the other is
returned, otherwise the greater. -/
def fpMax (a b : Fp) : Fp :=
  match a, b with
  | .nan, x => x
  | x, .nan => x
  | x, y => if fpLt x y then y else x

/-- `abs`. -/
def fpAbs : Fp → Fp
  | .nan => .nan
  | .inf _ => .inf false
  | .fin q => .fin |q|

/-- Truncate a rational toward zero. -/
def qtrunc (q : ℚ) : ℤ :=
  if 0 ≤ q then ⌊q⌋ else -⌊-q⌋

/-- Rust float→integer `as` cast: truncate toward zero, saturate at the
target bounds, NaN to 0. -/
def fpToInt (lo hi : ℤ) : Fp → ℤ
  | .nan => 0
  | .inf s => if s then lo else hi
  | .fin q => max lo (min hi (qtrunc q))

/-- Rust `as f32` on an unsigned integer (round to nearest). -/
def f32ofNat (n : ℕ) : Fp := roundF32 n

/-- Rust `as f64` on an unsigned integer below `2^53` and `i32 as f64` (exact). -/
def f64ofInt (n : ℤ) : Fp := roundF64 n

/-- Rust `as f32` on an `f64` value. -/
def f32ofF64 : Fp → Fp
  | .nan => .nan
  | .inf s => .inf s
  | .fin q => roundF32 q

def f32mul : Fp → Fp → Fp := fpMul (roundPair 24 (-149) 128)
def f32div : Fp → Fp → Fp := fpDiv (roundPair 24 (-149) 128)
def f64mul : Fp → Fp → Fp := fpMul (roundPair 53 (-1074) 1024)
def f64div : Fp → Fp → Fp := fpDiv (roundPair 53 (-1074) 1024)

/-! ## SV message parser (src/lib.rs) -/

/-- Fixed-width IEC 61850 helper `read_iec61850_int8u`. -/
def read_iec61850_int8u (r : BytesReader) (encoding : Encoding) :
    Except DecodeError Nat × BytesReader :=
  decStep (read_octet_string r encoding) fun bs r =>
  match bs with
  | [b0] => (.ok b0, r)
  | _ => (.error .InvalidIntegerEncoding, r)

/-- Fixed-width IEC 61850 helper `read_iec61850_int16u`. -/
def read_iec61850_int16u (r : BytesReader) (encoding : Encoding) :
    Except DecodeError Nat × BytesReader :=
  decStep (read_octet_string r encoding) fun bs r =>
  match bs with
  | [b0, b1] => (.ok (b0 * 256 + b1), r)
  | _ => (.error .InvalidIntegerEncoding, r)

/-- Fixed-width IEC 61850 helper `read_iec61850_int32u`. -/
def read_iec61850_int32u (r : BytesReader) (encoding : Encoding) :
    Except DecodeError Nat × BytesReader :=
  decStep (read_octet_string r encoding) fun bs r =>
  match bs with
  | [b0, b1, b2, b3] => (.ok (((b0 * 256 + b1) * 256 + b2) * 256 + b3), r)
  | _ => (.error .InvalidIntegerEncoding, r)

/-- Fixed-width IEC 61850 helper `read_iec61850_utctime` (8-byte big-endian). -/
def read_iec61850_utctime (r : BytesReader) (encoding : Encoding) :
    Except DecodeError Nat × BytesReader :=
  decStep (read_octet_string r encoding) fun bs r =>
  match bs with
  | [b0, b1, b2, b3, b4, b5, b6, b7] =>
    (.ok (((((((b0 * 256 + b1) * 256 + b2) * 256 + b3) * 256 + b4) * 256 + b5) * 256
      + b6) * 256 + b7), r)
  | _ => (.error .InvalidIntegerEncoding, r)

/-- `i32::from_be_bytes` on the first four bytes of an 8-byte channel slot. -/
def i32be (b0 b1 b2 b3 : Nat) : ℤ :=
  let v : Nat := (((b0 * 256 + b1) * 256 + b2) * 256 + b3) % 2 ^ 32
  if v < 2 ^ 31 then (v : ℤ) else (v : ℤ) - 2 ^ 32

/-- The `f64` literal `0.001` (`current_scale`). -/
def current_scale : Fp := roundF64 (1 / 1000)

/-- The `f64` literal `0.01` (`voltage_scale`). -/
def voltage_scale : Fp := roundF64 (1 / 100)

structure Sample where
  current_a : Fp
  current_b : Fp
  current_c : Fp
  current_n : Fp
  voltage_a : Fp
  voltage_b : Fp
  voltage_c : Fp
  voltage_n : Fp
  deriving DecidableEq, Repr

/-- One channel slot of the 64-byte sample payload: the raw big-endian `i32`
(exact as `f64`) times the scale, rounded, then narrowed `as f32`. -/
def sampleSlot (bs : List Nat) (i : Nat) (scale : Fp) : Fp :=
  f32ofF64 (f64mul (f64ofInt
    (i32be (bs.getD (8 * i) 0) (bs.getD (8 * i + 1) 0) (bs.getD (8 * i + 2) 0)
      (bs.getD (8 * i + 3) 0))) scale)

/-- Build a `Sample` from the 64 payload bytes. -/
def sampleFromBytes (bs : List Nat) : Sample where
  current_a := sampleSlot bs 0 current_scale
  current_b := sampleSlot bs 1 current_scale
  current_c := sampleSlot bs 2 current_scale
  current_n := sampleSlot bs 3 current_scale
  voltage_a := sampleSlot bs 4 voltage_scale
  voltage_b := sampleSlot bs 5 voltage_scale
  voltage_c := sampleSlot bs 6 voltage_scale
  voltage_n := sampleSlot bs 7 voltage_scale

/-- `Sample::read`. -/
def Sample.read (r : BytesReader) (encoding : Encoding) :
    Except DecodeError Sample × BytesReader :=
  decStep (read_octet_string r encoding) fun bs r =>
  if bs.length ≠ 64 then (.error .InvalidIntegerEncoding, r)
  else (.ok (sampleFromBytes bs), r)

structure Asdu where
  svid : List Nat
  datset : Option (List Nat)
  smp_cnt : Nat
  conf_rev : Nat
  refr_tm : Option Nat
  smp_synch : Nat
  smp_rate : Option Nat
  sample : Sample
  smp_mod : Option Nat
  deriving DecidableEq, Repr

/-- The `read_optional_identifier(..)?.map(..).transpose()?` pattern. -/
def readOpt {α : Type} (r : BytesReader) (tag : Tag)
    (k : BytesReader → Encoding → Except DecodeError α × BytesReader) :
    Except DecodeError (Option α) × BytesReader :=
  decStep (read_optional_identifier r tag) fun opt r =>
  match opt with
  | none => (.ok none, r)
  | some encoding => decStep (k r encoding) fun a r => (.ok (some a), r)

/-- `read_asdu`: context-specific tags 0–8 in order. -/
def read_asdu (r : BytesReader) : Except DecodeError Asdu × BytesReader :=
  decStep (read_required_identifier r (Tag.ContextSpecific 0)) fun enc r =>
  decStep (read_visiblestring r enc) fun svid r =>
  decStep (readOpt r (Tag.ContextSpecific 1) read_visiblestring) fun datset r =>
  decStep (read_required_identifier r (Tag.ContextSpecific 2)) fun enc r =>
  decStep (read_iec61850_int16u r enc) fun smp_cnt r =>
  decStep (read_required_identifier r (Tag.ContextSpecific 3)) fun enc r =>
  decStep (read_iec61850_int32u r enc) fun conf_rev r =>
  decStep (readOpt r (Tag.ContextSpecific 4) read_iec61850_utctime) fun refr_tm r =>
  decStep (read_required_identifier r (Tag.ContextSpecific 5)) fun enc r =>
  decStep (read_iec61850_int8u r enc) fun smp_synch r =>
  decStep (readOpt r (Tag.ContextSpecific 6) read_iec61850_int16u) fun smp_rate r =>
  decStep (read_required_identifier r (Tag.ContextSpecific 7)) fun enc r =>
  decStep (Sample.read r enc) fun sample r =>
  decStep (readOpt r (Tag.ContextSpecific 8) read_iec61850_int16u) fun smp_mod r =>
  (.ok ⟨svid, datset, smp_cnt, conf_rev, refr_tm, smp_synch, smp_rate, sample, smp_mod⟩, r)

/-- The `(0..no_asdu).map(..).collect::<Result<Vec<_>, _>>()` loop over the
bounded inner reader: each iteration reads a `SEQUENCE` header and decodes one
ASDU from its own sub-reader. -/
def readAsdus : Nat → BytesReader → Except DecodeError (List Asdu) × BytesReader
  | 0, r => (.ok [], r)
  | n + 1, r =>
    decStep (read_required_identifier r (Tag.Universal 16)) fun _ r =>
    decStep (read_length r) fun len r =>
    decStep (liftRead (r.take_sub_reader len)) fun sub r =>
    decStep ((read_asdu sub).1, r) fun a r =>
    decStep (readAsdus n r) fun rest r =>
    (.ok (a :: rest), r)

/-- `read_savpdu`. -/
def read_savpdu (r : BytesReader) : Except DecodeError (List Asdu) × BytesReader :=
  decStep (read_required_identifier r (Tag.ContextSpecific 0)) fun enc r =>
  decStep (read_integer_as_u16 r enc) fun no_asdu r =>
  if no_asdu = 0 then (.error .TagOutOfRange, r)
  else
    decStep (read_optional_identifier r (Tag.ContextSpecific 1)) fun security r =>
    decStep
      (match security with
      | some _ => decStep (read_length r) fun len r => liftRead (r.skip len)
      | none => (.ok (), r))
      fun _ r =>
    decStep (read_required_identifier r (Tag.ContextSpecific 2)) fun _ r =>
    decStep (read_length r) fun len r =>
    decStep (liftRead (r.take_sub_reader len)) fun inner r =>
    ((readAsdus no_asdu inner).1, r)

structure SvMessage where
  appid : Nat
  asdus : List Asdu
  deriving DecidableEq, Repr

/-- The body of `parse`: the SV frame header followed by the
`[APPLICATION 0]` savPdu, with the final reader state. -/
def parseAux (bytes : List Nat) : Except DecodeError SvMessage × BytesReader :=
  decStep (liftRead (BytesReader.mk bytes).read_u16_be) fun appid r =>
  decStep (liftRead r.read_u16_be) fun length r =>
  decStep (liftRead r.read_u16_be) fun _ r =>
  decStep (liftRead r.read_u16_be) fun _ r =>
  if length < 8 then (.error .LengthOutOfRange, r)
  else
    decStep (liftRead (r.limit (length - 8))) fun _ r =>
    decStep (read_required_identifier r (Tag.Application 0)) fun _ r =>
    decStep (read_length r) fun len r =>
    decStep (liftRead (r.limit len)) fun _ r =>
    decStep (read_savpdu r) fun asdus r =>
    (.ok ⟨appid, asdus⟩, r)

/-- `parse`. -/
def parse (bytes : List Nat) : Except DecodeError SvMessage :=
  (parseAux bytes).1

deriving instance DecidableEq for Except

/-! ## Sample time and sample buffers (src/sample_buffer.rs) -/

/-- A timestamp in sample periods since the Unix epoch (`SampleTime(u64)`). -/
structure SampleTime where
  val : Nat
  deriving DecidableEq, Repr

namespace SampleTime

/-- `from_seconds_and_samples`: `seconds * rate + samples` on `u64`. -/
def from_seconds_and_samples (seconds samples sample_rate : Nat) : SampleTime :=
  ⟨(seconds * sample_rate + samples) % 2 ^ 64⟩

/-- `as_secs`. -/
def as_secs (t : SampleTime) (sample_rate : Nat) : Nat :=
  t.val / sample_rate

/-- `subsec_samples`: `(self.0 % rate) as u32`. -/
def subsec_samples (t : SampleTime) (sample_rate : Nat) : Nat :=
  t.val % sample_rate % 2 ^ 32

/-- `add_samples` on `u64`. -/
def add_samples (t : SampleTime) (samples : Nat) : SampleTime :=
  ⟨(t.val + samples) % 2 ^ 64⟩

end SampleTime

def is_gregorian_leap_year (year : Nat) : Bool :=
  year % 4 = 0 && (year % 100 ≠ 0 || year % 400 = 0)

/-- Days since 0001-01-01 in the proleptic Gregorian calendar. -/
def fixed_from_gregorian (year month day : Nat) : Nat :=
  365 * (year - 1) + (year - 1) / 4 - (year - 1) / 100 + (year - 1) / 400
    + (367 * month - 362) / 12 + day
    - (if month ≤ 2 then 0 else if is_gregorian_leap_year year then 1 else 2)

/-- `SampleTime::to_date_time`: year, month, day, hours, minutes, seconds and
microseconds.  The microseconds are computed in single precision:
`(subsec as f32 / rate as f32 * 1_000_000.0) as u32`. -/
def SampleTime.to_date_time (t : SampleTime) (sample_rate : Nat) :
    Nat × Nat × Nat × Nat × Nat × Nat × Nat :=
  let date := t.val / (86400 * sample_rate) + fixed_from_gregorian 1970 1 1
  let d_0 := date - 1
  let n_400 := d_0 / 146097
  let d_1 := d_0 % 146097
  let n_100 := d_1 / 36524
  let d_2 := d_1 % 36524
  let n_4 := d_2 / 1461
  let d_3 := d_2 % 1461
  let n_1 := d_3 / 365
  let year := 400 * n_400 + 100 * n_100 + 4 * n_4 + n_1
    + (if n_100 = 4 ∨ n_4 = 4 then 0 else 1)
  let prior_days := date - fixed_from_gregorian year 1 1
  let correction :=
    if date < fixed_from_gregorian year 3 1 then 0
    else if is_gregorian_leap_year year then 1 else 2
  let month := (12 * (prior_days + correction) + 373) / 367
  let day := date - fixed_from_gregorian year month 1 + 1
  let time := t.val % (86400 * sample_rate) / sample_rate
  let hours := time / 3600
  let minutes := time % 3600 / 60
  let seconds := time % 60
  let microseconds :=
    (fpToInt 0 (2 ^ 32 - 1)
      (f32mul (f32div (f32ofNat (t.val % sample_rate)) (f32ofNat sample_rate))
        (.fin 1000000))).toNat
  (year, month, day, hours, minutes, seconds, microseconds)

/-- A single channel of a sample buffer. -/
structure SampleBufferChannel where
  buffer : List Fp
  max : Fp
  deriving DecidableEq, Repr

namespace SampleBufferChannel

/-- `SampleBufferChannel::new`. -/
def new (length : Nat) : SampleBufferChannel :=
  ⟨List.replicate length (.fin 0), .fin 0⟩

/-- `SampleBufferChannel::insert_sample` (callers guarantee `index` is in
bounds; Rust would panic otherwise). -/
def insert_sample (c : SampleBufferChannel) (index : Nat) (value : Fp) :
    SampleBufferChannel :=
  ⟨c.buffer.set index value, fpMax c.max (fpAbs value)⟩

end SampleBufferChannel

/-- A time-aligned window of eight channels (`SampleBuffer`; the Rust
`channels: [SampleBufferChannel; 8]` array becomes eight fields). -/
structure SampleBuffer where
  chan0 : SampleBufferChannel
  chan1 : SampleBufferChannel
  chan2 : SampleBufferChannel
  chan3 : SampleBufferChannel
  chan4 : SampleBufferChannel
  chan5 : SampleBufferChannel
  chan6 : SampleBufferChannel
  chan7 : SampleBufferChannel
  sample_rate : Nat
  start_time : SampleTime
  length : Nat
  deriving DecidableEq, Repr

namespace SampleBuffer

/-- `SampleBuffer::new`. -/
def new (sample_rate : Nat) (start_time : SampleTime) (length : Nat) : SampleBuffer where
  chan0 := SampleBufferChannel.new length
  chan1 := SampleBufferChannel.new length
  chan2 := SampleBufferChannel.new length
  chan3 := SampleBufferChannel.new length
  chan4 := SampleBufferChannel.new length
  chan5 := SampleBufferChannel.new length
  chan6 := SampleBufferChannel.new length
  chan7 := SampleBufferChannel.new length
  sample_rate := sample_rate
  start_time := start_time
  length := length

/-- `SampleBuffer::insert_sample`: `index = smp_cnt - subsec` is a wrapping
`u32` subtraction (release profile); out-of-range indices drop the sample. -/
def insert_sample (b : SampleBuffer) (smp_cnt : Nat) (sample : Sample) : SampleBuffer :=
  let index := (smp_cnt + 2 ^ 32 - b.start_time.subsec_samples b.sample_rate) % 2 ^ 32
  if index < b.length then
    { b with
      chan0 := b.chan0.insert_sample index sample.current_a
      chan1 := b.chan1.insert_sample index sample.current_b
      chan2 := b.chan2.insert_sample index sample.current_c
      chan3 := b.chan3.insert_sample index sample.current_n
      chan4 := b.chan4.insert_sample index sample.voltage_a
      chan5 := b.chan5.insert_sample index sample.voltage_b
      chan6 := b.chan6.insert_sample index sample.voltage_c
      chan7 := b.chan7.insert_sample index sample.voltage_n }
  else
    b

/-- `is_sample_within_timespan` (`SampleTime` order is the `u64` order). -/
def is_sample_within_timespan (b : SampleBuffer) (timestamp : SampleTime) : Bool :=
  b.start_time.val ≤ timestamp.val ∧ timestamp.val < (b.start_time.add_samples b.length).val

/-- `is_sample_after_timespan`. -/
def is_sample_after_timespan (b : SampleBuffer) (timestamp : SampleTime) : Bool :=
  (b.start_time.add_samples b.length).val ≤ timestamp.val

end SampleBuffer

/-- The `ns_offset >= recv_time_ns as f64` test of
`SampleBufferQueue::insert_sample`, computed in `f64`:
`ns_offset = smp_cnt as f64 * (1e9 / sample_rate as f64)`. -/
def nsOffsetCond (smp_cnt recv_time_ns sample_rate : Nat) : Bool :=
  let ns_per_sample := f64div (.fin 1000000000) (roundF64 sample_rate)
  let ns_offset := f64mul (roundF64 smp_cnt) ns_per_sample
  fpLe (roundF64 recv_time_ns) ns_offset

/-- Replace the first element satisfying `p` (scanning from the front). -/
def updateFirst {α : Type} (p : α → Bool) (f : α → α) : List α → List α
  | [] => []
  | x :: xs => if p x then f x :: xs else x :: updateFirst p f xs

/-- `SampleBufferQueue::insert_sample`, on the queue contents (front of the
list is the front of the `VecDeque`).  The timestamp-correction subtraction
`recv_time_s -= 1` is a wrapping `u64` operation (release profile). -/
def SampleBufferQueue.insert_sample (queue : List SampleBuffer)
    (recv_time_s recv_time_ns sample_rate buffer_length : Nat) (asdu : Asdu) :
    List SampleBuffer :=
  let recv_s :=
    if nsOffsetCond asdu.smp_cnt recv_time_ns sample_rate then
      (recv_time_s % 2 ^ 64 + 2 ^ 64 - 1) % 2 ^ 64
    else
      recv_time_s % 2 ^ 64
  let timestamp := SampleTime.from_seconds_and_samples recv_s asdu.smp_cnt sample_rate
  let new_buffer :=
    (SampleBuffer.new sample_rate
      (SampleTime.from_seconds_and_samples recv_s
        (asdu.smp_cnt / buffer_length * buffer_length) sample_rate)
      buffer_length).insert_sample asdu.smp_cnt asdu.sample
  match queue.getLast? with
  | none => [new_buffer]
  | some back =>
    if back.is_sample_after_timespan timestamp then
      queue ++ [new_buffer]
    else
      (updateFirst (fun b => b.is_sample_within_timespan timestamp)
        (fun b => b.insert_sample asdu.smp_cnt asdu.sample) queue.reverse).reverse

/-! ## OpenPMU payload rendering (`SampleBuffer::flush` / `build_channel`) -/

/-- Standard-alphabet Base64 character (as an ASCII code). -/
def b64char (n : Nat) : Nat :=
  if n < 26 then 65 + n
  else if n < 52 then 71 + n
  else if n < 62 then n - 4
  else if n = 62 then 43
  else 47

/-- Standard Base64 encoding with padding, over ASCII codes. -/
def base64encode : List Nat → List Nat
  | b0 :: b1 :: b2 :: rest =>
    b64char (b0 / 4) :: b64char (b0 % 4 * 16 + b1 / 16)
      :: b64char (b1 % 16 * 4 + b2 / 64) :: b64char (b2 % 64) :: base64encode rest
  | [b0, b1] => [b64char (b0 / 4), b64char (b0 % 4 * 16 + b1 / 16), b64char (b1 % 16 * 4), 61]
  | [b0] => [b64char (b0 / 4), b64char (b0 % 4 * 16), 61, 61]
  | [] => []

/-- Inverse Base64 character lookup. -/
def b64inv (c : Nat) : Option Nat :=
  if 65 ≤ c ∧ c ≤ 90 then some (c - 65)
  else if 97 ≤ c ∧ c ≤ 122 then some (c - 71)
  else if 48 ≤ c ∧ c ≤ 57 then some (c + 4)
  else if c = 43 then some 62
  else if c = 47 then some 63
  else none

/-- Standard Base64 decoding (spec side, for stating the round-trip). -/
def base64decode : List Nat → Option (List Nat)
  | [] => some []
  | c0 :: c1 :: c2 :: c3 :: rest =>
    (match b64inv c0, b64inv c1 with
    | some s0, some s1 =>
      if c2 = 61 ∧ c3 = 61 ∧ rest = [] then some [s0 * 4 + s1 / 16]
      else if c3 = 61 ∧ rest = [] then
        match b64inv c2 with
        | some s2 => some [s0 * 4 + s1 / 16, s1 % 16 * 16 + s2 / 4]
        | none => none
      else
        match b64inv c2, b64inv c3 with
        | some s2, some s3 =>
          (base64decode rest).map fun bs =>
              (s0 * 4 + s1 / 16) :: (s1 % 16 * 16 + s2 / 4) :: (s2 % 4 * 64 + s3) :: bs
        | _, _ => none
    | _, _ => none)
  | _ => none

/-- Big-endian bytes of an `i16` (two's complement). -/
def i16beBytes (n : ℤ) : List Nat :=
  let u := (n % 65536).toNat
  [u / 256, u % 256]

/-- The per-slot conversion of `build_channel`:
`(value / channel.max * 32767.0) as i16` in `f32`. -/
def channelConverted (max value : Fp) : ℤ :=
  fpToInt (-32768) 32767 (f32mul (f32div value max) (.fin 32767))

/-- The bytes Base64-encoded into `<Payload>` by `build_channel`. -/
def buildChannelBytes (channel : SampleBufferChannel) : List Nat :=
  if channel.max = .fin 0 then
    List.replicate (channel.buffer.length * 2) 0
  else
    (channel.buffer.map fun value => i16beBytes (channelConverted channel.max value)).flatten

/-- The `<Payload>` text (ASCII codes) emitted by `build_channel`. -/
def channelPayload (channel : SampleBufferChannel) : List Nat :=
  base64encode (buildChannelBytes channel)

/-! ## Auxiliary definitions used to state the claims -/

/-- Big-endian value of a byte list (spec side). -/
def beVal (bs : List Nat) : Nat :=
  bs.foldl (fun acc b => acc * 256 + b) 0

/-- `beVal` starting from an accumulator (the loop invariant view). -/
def beValFrom (acc : Nat) (bs : List Nat) : Nat :=
  bs.foldl (fun acc b => acc * 256 + b) acc

/-- Minimal BER INTEGER content encoding of an unsigned 16-bit value
(spec side, from the claim's wording). -/
def minIntEncoding (n : Nat) : List Nat :=
  if n < 128 then [n]
  else if n < 256 then [0, n]
  else if n < 32768 then [n / 256, n % 256]
  else [0, n / 256, n % 256]

/-- Run a sequence of `SampleBufferChannel::insert_sample` calls. -/
def runChannelInserts (c : SampleBufferChannel) (ops : List (Nat × Fp)) :
    SampleBufferChannel :=
  ops.foldl (fun c p => c.insert_sample p.1 p.2) c

/-- Run a sequence of `SampleBufferQueue::insert_sample` calls against an
initially empty queue; each call is `(recv_time_s, recv_time_ns, asdu)`. -/
def runQueueInserts (sample_rate buffer_length : Nat)
    (calls : List (Nat × Nat × Asdu)) : List SampleBuffer :=
  calls.foldl
    (fun q c => SampleBufferQueue.insert_sample q c.1 c.2.1 sample_rate buffer_length c.2.2) []

/-- Queue well-formedness: every buffer carries the configured rate and
length, starts on a multiple of `length`, fits below `2^64`, and consecutive
buffers are separated by at least one window. -/
def QueueWF (sample_rate buffer_length : Nat) (q : List SampleBuffer) : Prop :=
  (∀ b ∈ q, b.sample_rate = sample_rate ∧ b.length = buffer_length ∧
    b.start_time.val % buffer_length = 0 ∧ b.start_time.val + buffer_length < 2 ^ 64) ∧
  List.Chain' (fun a b => a.start_time.val + buffer_length ≤ b.start_time.val) q

/-- An all-zero `Sample` (fixture for concrete scenarios). -/
def sampleZero : Sample :=
  ⟨.fin 0, .fin 0, .fin 0, .fin 0, .fin 0, .fin 0, .fin 0, .fin 0⟩

/-- An `Asdu` with a given `smp_cnt` and zero sample (fixture). -/
def asduWithCnt (smp_cnt : Nat) : Asdu :=
  ⟨[], none, smp_cnt, 0, none, 0, none, sampleZero, none⟩

/-! ## Theorems -/

theorem decStep_ok {α β : Type} {x : Except DecodeError α × BytesReader}
    {k : α → BytesReader → Except DecodeError β × BytesReader} {b : β} {r2 : BytesReader}
    (h : decStep x k = (.ok b, r2)) :
    ∃ a r1, x = (.ok a, r1) ∧ k a r1 = (.ok b, r2) := by
  rcases x with ⟨e, r⟩
  cases e with
  | ok a => exact ⟨a, r, rfl, h⟩
  | error e => simp [decStep] at h

/-- C10: every `BytesReader` operation that fails with `EndOfBuffer` leaves
the reader state exactly as it was before the call, so later operations
behave as if the failing call had never happened. -/
theorem C10_reader_failure_preserves_state (r : BytesReader) (n : Nat) :
    ((r.read_bytes n).1 = .error .EndOfBuffer → (r.read_bytes n).2 = r) ∧
    ((r.read_u8_array n).1 = .error .EndOfBuffer → (r.read_u8_array n).2 = r) ∧
    ((r.take_sub_reader n).1 = .error .EndOfBuffer → (r.take_sub_reader n).2 = r) ∧
    ((r.limit n).1 = .error .EndOfBuffer → (r.limit n).2 = r) ∧
    ((r.skip n).1 = .error .EndOfBuffer → (r.skip n).2 = r) ∧
    (r.read_u8.1 = .error .EndOfBuffer → r.read_u8.2 = r) ∧
    (r.read_u16_be.1 = .error .EndOfBuffer → r.read_u16_be.2 = r) := by
  have hrb : (r.read_bytes n).1 = .error .EndOfBuffer → (r.read_bytes n).2 = r := by
    unfold BytesReader.read_bytes
    split <;> simp
  have hrb2 : (r.read_bytes 2).1 = .error .EndOfBuffer → (r.read_bytes 2).2 = r := by
    unfold BytesReader.read_bytes
    split <;> simp
  refine ⟨hrb, hrb, ?_, ?_, ?_, ?_, ?_⟩
  · unfold BytesReader.take_sub_reader
    rcases hx : r.read_bytes n with ⟨e, r'⟩
    cases e with
    | ok bs => simp
    | error e =>
      intro h
      have := hrb (by rw [hx])
      simpa [hx] using this
  · unfold BytesReader.limit
    split <;> simp
  · unfold BytesReader.skip
    split <;> simp
  · unfold BytesReader.read_u8
    cases hb : r.bytes <;> simp
  · unfold BytesReader.read_u16_be BytesReader.read_u8_array
    rcases hx : r.read_bytes 2 with ⟨e, r'⟩
    cases e with
    | ok bs => simp
    | error e =>
      intro h
      have := hrb2 (by rw [hx])
      simpa [hx] using this

theorem C10_reader_failure_preserves_state_witness :
    (BytesReader.read_bytes ⟨[1]⟩ 2).2 = ⟨[1]⟩ :=
  (C10_reader_failure_preserves_state ⟨[1]⟩ 2).1 (by decide)

theorem beValFrom_cons (acc b : Nat) (l : List Nat) :
    beValFrom acc (b :: l) = beValFrom (acc * 256 + b) l := rfl

theorem readLengthLoop_ok (count : Nat) : ∀ (acc : Nat) (bs : List Nat),
    count ≤ bs.length →
    (∀ j < count, beValFrom acc (bs.take j) < 2 ^ 56) →
    readLengthLoop count acc ⟨bs⟩
      = (.ok (beValFrom acc (bs.take count)), ⟨bs.drop count⟩) := by
  induction count with
  | zero => intro acc bs _ _; simp [readLengthLoop, beValFrom]
  | succ n ih =>
    intro acc bs h1 h2
    have hacc : acc < 2 ^ 56 := by simpa [beValFrom] using h2 0 (Nat.succ_pos n)
    cases bs with
    | nil => simp at h1
    | cons b tl =>
      have hmod : acc * 256 % 2 ^ 64 = acc * 256 := Nat.mod_eq_of_lt (by omega)
      simp only [readLengthLoop, if_neg (by omega : ¬ 2 ^ 56 ≤ acc),
        BytesReader.read_u8, liftRead, decStep, hmod]
      rw [ih (acc * 256 + b) tl (by simpa using h1)
        (fun j hj => by simpa [beValFrom_cons] using h2 (j + 1) (by omega))]
      simp [List.take_succ_cons, beValFrom_cons]

theorem readLengthLoop_err (count : Nat) : ∀ (acc : Nat) (bs : List Nat) (j : Nat),
    j < count → j ≤ bs.length → 2 ^ 56 ≤ beValFrom acc (bs.take j) →
    (readLengthLoop count acc ⟨bs⟩).1 = .error .LengthOutOfRange := by
  induction count with
  | zero => intro acc bs j h _ _; omega
  | succ n ih =>
    intro acc bs j hj hjlen hval
    by_cases hacc : 2 ^ 56 ≤ acc
    · simp only [readLengthLoop]
      rw [if_pos (by omega)]
    · have hj0 : j ≠ 0 := by
        rintro rfl
        simp [beValFrom] at hval
        omega
      cases bs with
      | nil =>
        simp only [List.length_nil, Nat.le_zero] at hjlen
        omega
      | cons b tl =>
        obtain ⟨j2, rfl⟩ : ∃ j2, j = j2 + 1 := ⟨j - 1, by omega⟩
        have hmod : acc * 256 % 2 ^ 64 = acc * 256 := Nat.mod_eq_of_lt (by omega)
        simp only [readLengthLoop, if_neg hacc, BytesReader.read_u8, liftRead, decStep, hmod]
        exact ih (acc * 256 + b) tl j2 (by omega) (by simpa using hjlen)
          (by simpa [beValFrom_cons] using hval)

/-- C7: `read_length` returns the first byte directly for 0–127, fails
`IndefiniteLength` on 128 and `ReservedLength` on 255, and for 129–254 reads
that many subsequent bytes big-endian, failing `LengthOutOfRange` as soon as
the accumulator reaches `2^56` before a shift; including the concrete
examples `82 12 34` → `0x1234` and `89 00 12 34 56 78 9A BC DE F0` →
`0x123456789ABCDEF0`. -/
theorem C7_read_length_spec (b : Nat) (bs : List Nat) :
    (b < 128 → read_length ⟨b :: bs⟩ = (.ok b, ⟨bs⟩)) ∧
    read_length ⟨128 :: bs⟩ = (.error .IndefiniteLength, ⟨bs⟩) ∧
    read_length ⟨255 :: bs⟩ = (.error .ReservedLength, ⟨bs⟩) ∧
    (128 < b → b < 255 → b - 128 ≤ bs.length →
      (∀ j < b - 128, beVal (bs.take j) < 2 ^ 56) →
      read_length ⟨b :: bs⟩ = (.ok (beVal (bs.take (b - 128))), ⟨bs.drop (b - 128)⟩)) ∧
    (128 < b → b < 255 →
      (∃ j, j < b - 128 ∧ j ≤ bs.length ∧ 2 ^ 56 ≤ beVal (bs.take j)) →
      (read_length ⟨b :: bs⟩).1 = .error .LengthOutOfRange) ∧
    read_length ⟨[0x82, 0x12, 0x34]⟩ = (.ok 0x1234, ⟨[]⟩) ∧
    read_length ⟨[0x89, 0x00, 0x12, 0x34, 0x56, 0x78, 0x9A, 0xBC, 0xDE, 0xF0]⟩
      = (.ok 0x123456789ABCDEF0, ⟨[]⟩) := by
  have hstep : ∀ (c : Nat) (tl : List Nat),
      read_length ⟨c :: tl⟩ =
        (if c < 128 then (.ok c, ⟨tl⟩)
         else if c = 128 then (.error .IndefiniteLength, ⟨tl⟩)
         else if c = 255 then (.error .ReservedLength, ⟨tl⟩)
         else readLengthLoop (c % 128) 0 ⟨tl⟩) := by
    intro c tl
    simp only [read_length, BytesReader.read_u8, liftRead, decStep]
  refine ⟨?_, ?_, ?_, ?_, ?_, by decide, by decide⟩
  · intro h; rw [hstep]; simp [h]
  · rw [hstep]; simp
  · rw [hstep]; simp
  · intro h1 h2 h3 h4
    have hm : b % 128 = b - 128 := by omega
    rw [hstep, if_neg (by omega), if_neg (by omega), if_neg (by omega), hm]
    exact readLengthLoop_ok (b - 128) 0 bs h3 h4
  · rintro h1 h2 ⟨j, hj1, hj2, hj3⟩
    have hm : b % 128 = b - 128 := by omega
    rw [hstep, if_neg (by omega), if_neg (by omega), if_neg (by omega), hm]
    exact readLengthLoop_err (b - 128) 0 bs j hj1 hj2 hj3

theorem C7_read_length_spec_witness :
    read_length ⟨[5, 9]⟩ = (.ok 5, ⟨[9]⟩) :=
  (C7_read_length_spec 5 [9]).1 (by decide)

theorem read_length_short (c : Nat) (tl : List Nat) (h : c < 128) :
    read_length ⟨c :: tl⟩ = (.ok c, ⟨tl⟩) := by
  simp only [read_length, BytesReader.read_u8, liftRead, decStep]
  simp [h]

/-- C8: on primitive INTEGER content, `read_integer_as_u16` rejects the empty
encoding and overlong encodings as `InvalidIntegerEncoding`; rejects every
negative (leading byte ≥ 0x80) non-overlong content as `IntegerOutOfRange`,
including the lone byte `FF` and `FF` followed by a byte < 0x80; rejects every
non-negative non-overlong content whose big-endian value is ≥ 2^16 as
`IntegerOutOfRange`; any accepted value is < 2^16; and it accepts every
minimal encoding of 0..=65535, returning its value. -/
theorem C8_read_integer_as_u16_spec (content rest : List Nat) :
    (content.length < 128 →
      read_integer_as_u16 ⟨content.length :: (content ++ rest)⟩ Encoding.Primitive
        = (intBytesToU16 content, ⟨rest⟩)) ∧
    intBytesToU16 [] = .error .InvalidIntegerEncoding ∧
    (∀ x tl, x < 128 → intBytesToU16 (0 :: x :: tl) = .error .InvalidIntegerEncoding) ∧
    (∀ x tl, 128 ≤ x → intBytesToU16 (255 :: x :: tl) = .error .InvalidIntegerEncoding) ∧
    (∀ b0 tl, 128 ≤ b0 → b0 < 255 →
      intBytesToU16 (b0 :: tl) = .error .IntegerOutOfRange) ∧
    intBytesToU16 [255] = .error .IntegerOutOfRange ∧
    (∀ x tl, x < 128 → intBytesToU16 (255 :: x :: tl) = .error .IntegerOutOfRange) ∧
    (∀ b0 b1 tl, (∀ x ∈ b0 :: b1 :: tl, x < 256) → b0 < 128 →
      ¬ (b0 = 0 ∧ b1 < 128) → 65536 ≤ beVal (b0 :: b1 :: tl) →
      intBytesToU16 (b0 :: b1 :: tl) = .error .IntegerOutOfRange) ∧
    (∀ bs v, (∀ x ∈ bs, x < 256) → intBytesToU16 bs = .ok v → v < 65536) ∧
    (∀ n, n < 65536 → intBytesToU16 (minIntEncoding n) = .ok n) := by
  refine ⟨?_, rfl, ?_, ?_, ?_, by decide, ?_, ?_, ?_, ?_⟩
  · intro hlen
    simp only [read_integer_as_u16, if_neg (by simp : ¬ Encoding.Primitive ≠ Encoding.Primitive)]
    rw [read_length_short content.length (content ++ rest) hlen]
    simp only [decStep, BytesReader.read_bytes, liftRead,
      if_pos (by simp : content.length ≤ (content ++ rest).length)]
    rw [List.take_left, List.drop_left]
  · intro x tl hx
    simp [intBytesToU16, hx]
  · intro x tl hx
    simp [intBytesToU16, show ¬ x < 128 by omega, hx]
  · intro b0 tl h1 h2
    cases tl with
    | nil => simp [intBytesToU16, h1, show ¬ b0 < 128 by omega]
    | cons b1 tl2 =>
      simp [intBytesToU16, h1, show b0 ≠ 0 by omega, show b0 ≠ 255 by omega]
  · intro x tl hx
    simp [intBytesToU16, show ¬ 128 ≤ x from by omega]
  · intro b0 b1 tl hbytes hb0 hov hval
    simp only [intBytesToU16]
    rw [if_neg hov]
    rw [if_neg (by omega : ¬ (b0 = 255 ∧ 128 ≤ b1))]
    rw [if_neg (by omega : ¬ 128 ≤ b0)]
    cases tl with
    | nil =>
      exfalso
      have h1 : b1 < 256 := hbytes b1 (by simp)
      simp only [beVal, List.foldl] at hval
      omega
    | cons b2 tl2 =>
      cases tl2 with
      | nil =>
        dsimp only
        by_cases hb00 : b0 = 0
        · exfalso
          subst hb00
          have h1 : b1 < 256 := hbytes b1 (by simp)
          have h2 : b2 < 256 := hbytes b2 (by simp)
          simp only [beVal, List.foldl] at hval
          omega
        · rw [if_neg hb00]
      | cons b3 tl3 => rfl
  · intro bs v hbytes hok
    match bs, hok with
    | [b0], hok =>
      have hb0 : b0 < 256 := hbytes b0 (by simp)
      by_cases h : 128 ≤ b0
      · simp [intBytesToU16, h] at hok
      · simp [intBytesToU16, h] at hok
        omega
    | b0 :: b1 :: rest2, hok =>
      have hb1 : b1 < 256 := hbytes b1 (by simp)
      simp only [intBytesToU16] at hok
      split at hok
      · exact absurd hok (by simp)
      split at hok
      · exact absurd hok (by simp)
      split at hok
      · exact absurd hok (by simp)
      rename_i h1 h2 hneg
      match rest2, hok with
      | [], hok =>
        dsimp only at hok
        simp only [Except.ok.injEq] at hok
        omega
      | [b2], hok =>
        dsimp only at hok
        have hb2 : b2 < 256 := hbytes b2 (by simp)
        by_cases hb00 : b0 = 0
        · rw [if_pos hb00] at hok
          simp only [Except.ok.injEq] at hok
          omega
        · rw [if_neg hb00] at hok
          exact absurd hok (by simp)
      | _ :: _ :: _, hok =>
        dsimp only at hok
        exact absurd hok (by simp)
  · intro n hn
    by_cases h1 : n < 128
    · simp [minIntEncoding, intBytesToU16, h1, show ¬ 128 ≤ n by omega]
    · by_cases h2 : n < 256
      · simp [minIntEncoding, intBytesToU16, h1, h2, show ¬ n < 128 by omega]
      · by_cases h3 : n < 32768
        · have hd : n / 256 ≠ 0 := by omega
          have hd2 : n / 256 < 128 := by omega
          simp [minIntEncoding, intBytesToU16, h1, h2, h3, hd,
            show n / 256 ≠ 255 by omega, show ¬ 128 ≤ n / 256 by omega]
          omega
        · have hd : 128 ≤ n / 256 := by omega
          simp [minIntEncoding, intBytesToU16, h1, h2, h3,
            show ¬ n / 256 < 128 by omega]
          omega

theorem C8_read_integer_as_u16_spec_witness :
    read_integer_as_u16 ⟨[2, 3, 5]⟩ Encoding.Primitive = (.ok 773, ⟨[]⟩) := by
  have h := (C8_read_integer_as_u16_spec [3, 5] []).1 (by decide)
  simpa using h

theorem readAsdus_ok_length : ∀ (n : Nat) (r : BytesReader) (as2 : List Asdu)
    (r2 : BytesReader), readAsdus n r = (.ok as2, r2) → as2.length = n := by
  intro n
  induction n with
  | zero =>
    intro r as2 r2 h
    simp only [readAsdus, Prod.mk.injEq, Except.ok.injEq] at h
    simp [← h.1]
  | succ n ih =>
    intro r as2 r2 h
    simp only [readAsdus] at h
    obtain ⟨e1, r1, _, h⟩ := decStep_ok h
    obtain ⟨len, r3, _, h⟩ := decStep_ok h
    obtain ⟨sub, r4, _, h⟩ := decStep_ok h
    obtain ⟨a, r5, _, h⟩ := decStep_ok h
    obtain ⟨rest2, r6, hrec, h⟩ := decStep_ok h
    simp only [Prod.mk.injEq, Except.ok.injEq] at h
    have hlen := ih _ _ _ hrec
    simp [← h.1, hlen]

theorem read_savpdu_ok_length (r r2 : BytesReader) (as2 : List Asdu)
    (h : read_savpdu r = (.ok as2, r2)) : 1 ≤ as2.length := by
  simp only [read_savpdu] at h
  obtain ⟨enc, r1, _, h⟩ := decStep_ok h
  obtain ⟨no_asdu, r3, _, h⟩ := decStep_ok h
  split at h
  · simp at h
  · rename_i hno
    obtain ⟨sec, r4, _, h⟩ := decStep_ok h
    obtain ⟨u, r5, _, h⟩ := decStep_ok h
    obtain ⟨enc2, r6, _, h⟩ := decStep_ok h
    obtain ⟨len, r7, _, h⟩ := decStep_ok h
    obtain ⟨inner, r8, _, h⟩ := decStep_ok h
    rcases hh : readAsdus no_asdu inner with ⟨e, rr⟩
    rw [hh] at h
    simp only [Prod.mk.injEq] at h
    have : readAsdus no_asdu inner = (.ok as2, rr) := by rw [hh, h.1]
    have hlen := readAsdus_ok_length no_asdu inner as2 rr this
    omega

theorem parse_ok_length (bytes : List Nat) (msg : SvMessage)
    (h : parse bytes = .ok msg) : 1 ≤ msg.asdus.length := by
  unfold parse at h
  rcases hx : parseAux bytes with ⟨e, rr⟩
  rw [hx] at h
  simp only at h
  subst h
  simp only [parseAux] at hx
  obtain ⟨appid, r1, _, hx⟩ := decStep_ok hx
  obtain ⟨length, r3, _, hx⟩ := decStep_ok hx
  obtain ⟨u1, r4, _, hx⟩ := decStep_ok hx
  obtain ⟨u2, r5, _, hx⟩ := decStep_ok hx
  split at hx
  · simp at hx
  · obtain ⟨u3, r6, _, hx⟩ := decStep_ok hx
    obtain ⟨u4, r7, _, hx⟩ := decStep_ok hx
    obtain ⟨len, r8, _, hx⟩ := decStep_ok hx
    obtain ⟨u5, r9, _, hx⟩ := decStep_ok hx
    obtain ⟨asdus, r10, hsav, hx⟩ := decStep_ok hx
    simp only [Prod.mk.injEq, Except.ok.injEq] at hx
    have := read_savpdu_ok_length _ _ _ hsav
    rw [← hx.1]
    simpa using this

/-- C1: for every byte sequence, `parse` either returns a structurally valid
`SvMessage` whose `asdus` list is non-empty, or a typed `DecodeError`.  The
embedding is a total function over arbitrary byte lists, so this also
witnesses that no input can make the decoding logic read out of bounds or
stop with a partial result. -/
theorem C1_parse_total (bytes : List Nat) :
    (∃ msg, parse bytes = .ok msg ∧ 1 ≤ msg.asdus.length) ∨
    (∃ e, parse bytes = .error e) := by
  cases h : parse bytes with
  | ok msg => exact .inl ⟨msg, rfl, parse_ok_length bytes msg h⟩
  | error e => exact .inr ⟨e, rfl⟩

theorem fpLe_refl (a : Fp) (ha : a ≠ .nan) : fpLe a a = true := by
  rcases a with _ | s | q
  · exact absurd rfl ha
  · cases s <;> rfl
  · simp [fpLe]

theorem fpLt_to_fpLe {a b : Fp} (h : fpLt a b = true) : fpLe a b = true := by
  rcases a with _ | s | qa <;> rcases b with _ | t | qb <;>
    first
    | (cases s <;> cases t <;> simp_all [fpLt, fpLe])
    | (try cases s) <;> (try cases t) <;>
        simp_all [fpLt, fpLe] <;> exact le_of_lt h

theorem fpLe_trans {a b c : Fp} (h1 : fpLe a b = true) (h2 : fpLe b c = true) :
    fpLe a c = true := by
  rcases a with _ | s | qa <;> rcases b with _ | t | qb <;> rcases c with _ | u | qc <;>
    (try cases s) <;> (try cases t) <;> (try cases u) <;>
    simp_all [fpLe] <;>
    exact le_trans h1 h2

theorem fpLt_false_le {a b : Fp} (ha : a ≠ .nan) (hb : b ≠ .nan)
    (h : fpLt a b = false) : fpLe b a = true := by
  rcases a with _ | s | qa <;> rcases b with _ | t | qb <;>
    (try cases s) <;> (try cases t) <;> simp_all [fpLt, fpLe]

theorem fpAbs_ne_nan {v : Fp} (hv : v ≠ .nan) : fpAbs v ≠ .nan := by
  rcases v with _ | s | q <;> simp_all [fpAbs]

theorem fpMax_ne_nan {a : Fp} (b : Fp) (ha : a ≠ .nan) : fpMax a b ≠ .nan := by
  rcases b with _ | t | qb
  · rcases a with _ | s | qa
    · exact absurd rfl ha
    · simp [fpMax]
    · simp [fpMax]
  all_goals
    rcases a with _ | s | qa
    · exact absurd rfl ha
    all_goals
      simp only [fpMax]
      split <;> simp

theorem fpLe_fpMax_left (a b : Fp) (ha : a ≠ .nan) : fpLe a (fpMax a b) = true := by
  rcases b with _ | t | qb
  · rcases a with _ | s | qa
    · exact absurd rfl ha
    · show fpLe _ (fpMax _ .nan) = true
      cases s <;> rfl
    · show fpLe _ (fpMax _ .nan) = true
      simp [fpMax, fpLe]
  all_goals
    rcases a with _ | s | qa
    · exact absurd rfl ha
    all_goals
      simp only [fpMax]
      split
      · next h => exact fpLt_to_fpLe h
      · next h => exact fpLe_refl _ ha

theorem fpLe_fpMax_right (a b : Fp) (hb : b ≠ .nan) : fpLe b (fpMax a b) = true := by
  rcases b with _ | t | qb
  · exact absurd rfl hb
  all_goals
    rcases a with _ | s | qa
    · exact fpLe_refl _ hb
    all_goals
      simp only [fpMax]
      split
      · next h => exact fpLe_refl _ hb
      · next h =>
        exact fpLt_false_le (by simp) hb (by simpa using h)

theorem channel_insert_inv (c : SampleBufferChannel) (i : Nat) (v : Fp)
    (hmax : c.max ≠ .nan) (hbuf : ∀ w ∈ c.buffer, fpLe (fpAbs w) c.max = true)
    (hv : v ≠ .nan) :
    (c.insert_sample i v).max ≠ .nan ∧
      ∀ w ∈ (c.insert_sample i v).buffer,
        fpLe (fpAbs w) (c.insert_sample i v).max = true := by
  refine ⟨fpMax_ne_nan _ hmax, ?_⟩
  intro w hw
  rcases List.mem_or_eq_of_mem_set hw with hmem | rfl
  · exact fpLe_trans (hbuf w hmem) (fpLe_fpMax_left _ _ hmax)
  · exact fpLe_fpMax_right _ _ (fpAbs_ne_nan hv)

theorem runChannelInserts_inv (ops : List (Nat × Fp)) :
    ∀ c : SampleBufferChannel, c.max ≠ .nan →
    (∀ w ∈ c.buffer, fpLe (fpAbs w) c.max = true) →
    (∀ p ∈ ops, p.2 ≠ Fp.nan) →
    (runChannelInserts c ops).max ≠ .nan ∧
      ∀ w ∈ (runChannelInserts c ops).buffer,
        fpLe (fpAbs w) (runChannelInserts c ops).max = true := by
  induction ops with
  | nil => intro c h1 h2 _; exact ⟨h1, h2⟩
  | cons p rest ih =>
    intro c h1 h2 h3
    have hstep := channel_insert_inv c p.1 p.2 h1 h2 (h3 p (by simp))
    have := ih (c.insert_sample p.1 p.2) hstep.1 hstep.2
      (fun q hq => h3 q (by simp [hq]))
    simpa [runChannelInserts] using this

/-- C4 (amended): after any sequence of in-range `insert_sample` calls whose
values are not NaN, every stored value satisfies `|buffer[i]| ≤ max`.  (With
NaN values the bound fails, see the counterexample.) -/
theorem C4_channel_max_bound_amended (len : Nat) (ops : List (Nat × Fp))
    (hidx : ∀ p ∈ ops, p.1 < len) (hnan : ∀ p ∈ ops, p.2 ≠ Fp.nan) :
    ∀ v ∈ (runChannelInserts (SampleBufferChannel.new len) ops).buffer,
      fpLe (fpAbs v) (runChannelInserts (SampleBufferChannel.new len) ops).max = true := by
  refine (runChannelInserts_inv ops (SampleBufferChannel.new len) (by simp [SampleBufferChannel.new]) ?_ hnan).2
  intro w hw
  have : w = .fin 0 := by
    simpa [SampleBufferChannel.new] using List.eq_of_mem_replicate hw
  subst this
  simp [SampleBufferChannel.new, fpAbs, fpLe]

theorem C4_channel_max_bound_amended_witness :
    fpLe (fpAbs (Fp.fin 1))
      (runChannelInserts (SampleBufferChannel.new 1) [(0, Fp.fin 1)]).max = true :=
  C4_channel_max_bound_amended 1 [(0, Fp.fin 1)] (by decide) (by decide)
    (Fp.fin 1) (by decide)

/-- C4 (counterexample): inserting NaN stores NaN while `f32::max` ignores
it, so `|buffer[0]| ≤ max` fails after `insert_sample(0, NaN)`. -/
theorem C4_channel_max_bound_counterexample :
    fpLe
      (fpAbs ((runChannelInserts (SampleBufferChannel.new 1) [(0, Fp.nan)]).buffer.getD 0 (.fin 0)))
      ((runChannelInserts (SampleBufferChannel.new 1) [(0, Fp.nan)]).max) = false := by
  decide

/-- C5: `SampleBuffer::insert_sample` is total over the full `u32` range of
`smp_cnt`: with `index = smp_cnt - subsec` (wrapping), an in-range index
writes all eight channel values at that index, and any other `smp_cnt` —
including `smp_cnt < subsec`, which wraps to a huge index — leaves the buffer
completely unchanged. -/
theorem C5_buffer_insert_total (b : SampleBuffer) (smp_cnt : Nat) (sample : Sample)
    (hcnt : smp_cnt < 2 ^ 32) (hrange : b.sample_rate + b.length ≤ 2 ^ 32)
    (hrate : 0 < b.sample_rate) :
    (b.start_time.subsec_samples b.sample_rate ≤ smp_cnt ∧
        smp_cnt - b.start_time.subsec_samples b.sample_rate < b.length →
      b.insert_sample smp_cnt sample =
        { b with
          chan0 := b.chan0.insert_sample
            (smp_cnt - b.start_time.subsec_samples b.sample_rate) sample.current_a
          chan1 := b.chan1.insert_sample
            (smp_cnt - b.start_time.subsec_samples b.sample_rate) sample.current_b
          chan2 := b.chan2.insert_sample
            (smp_cnt - b.start_time.subsec_samples b.sample_rate) sample.current_c
          chan3 := b.chan3.insert_sample
            (smp_cnt - b.start_time.subsec_samples b.sample_rate) sample.current_n
          chan4 := b.chan4.insert_sample
            (smp_cnt - b.start_time.subsec_samples b.sample_rate) sample.voltage_a
          chan5 := b.chan5.insert_sample
            (smp_cnt - b.start_time.subsec_samples b.sample_rate) sample.voltage_b
          chan6 := b.chan6.insert_sample
            (smp_cnt - b.start_time.subsec_samples b.sample_rate) sample.voltage_c
          chan7 := b.chan7.insert_sample
            (smp_cnt - b.start_time.subsec_samples b.sample_rate) sample.voltage_n }) ∧
    (¬ (b.start_time.subsec_samples b.sample_rate ≤ smp_cnt ∧
        smp_cnt - b.start_time.subsec_samples b.sample_rate < b.length) →
      b.insert_sample smp_cnt sample = b) := by
  have hsub : b.start_time.subsec_samples b.sample_rate < b.sample_rate := by
    have h1 : b.start_time.val % b.sample_rate < b.sample_rate :=
      Nat.mod_lt _ hrate
    have h2 : b.start_time.val % b.sample_rate % 2 ^ 32
        ≤ b.start_time.val % b.sample_rate := Nat.mod_le _ _
    simp only [SampleTime.subsec_samples]
    omega
  constructor
  · rintro ⟨h1, h2⟩
    have hidx : (smp_cnt + 2 ^ 32 - b.start_time.subsec_samples b.sample_rate) % 2 ^ 32
        = smp_cnt - b.start_time.subsec_samples b.sample_rate := by omega
    simp only [SampleBuffer.insert_sample, hidx, if_pos h2]
  · intro hnot
    by_cases hcase : b.start_time.subsec_samples b.sample_rate ≤ smp_cnt
    · have h2 : ¬ (smp_cnt - b.start_time.subsec_samples b.sample_rate < b.length) :=
        fun hh => hnot ⟨hcase, hh⟩
      have hidx : (smp_cnt + 2 ^ 32 - b.start_time.subsec_samples b.sample_rate) % 2 ^ 32
          = smp_cnt - b.start_time.subsec_samples b.sample_rate := by omega
      simp only [SampleBuffer.insert_sample, hidx, if_neg h2]
    · have hidx : (smp_cnt + 2 ^ 32 - b.start_time.subsec_samples b.sample_rate) % 2 ^ 32
          = smp_cnt + 2 ^ 32 - b.start_time.subsec_samples b.sample_rate := by omega
      have h2 : ¬ (smp_cnt + 2 ^ 32 - b.start_time.subsec_samples b.sample_rate
          < b.length) := by omega
      simp only [SampleBuffer.insert_sample, hidx, if_neg h2]

theorem C5_buffer_insert_total_witness :
    SampleBuffer.insert_sample (SampleBuffer.new 4000 ⟨3960⟩ 40) 4200 sampleZero
      = SampleBuffer.new 4000 ⟨3960⟩ 40 :=
  (C5_buffer_insert_total (SampleBuffer.new 4000 ⟨3960⟩ 40) 4200 sampleZero
    (by decide) (by decide) (by decide)).2 (by decide)

theorem getLast?_mem_list {α : Type} {l : List α} {a : α} (h : l.getLast? = some a) :
    a ∈ l := by
  have hx : a ∈ l.getLast? := Option.mem_def.2 h
  obtain ⟨hne, rfl⟩ := List.mem_getLast?_eq_getLast hx
  exact List.getLast_mem hne

theorem insert_sample_meta (b : SampleBuffer) (n : Nat) (s : Sample) :
    (b.insert_sample n s).start_time = b.start_time ∧
    (b.insert_sample n s).sample_rate = b.sample_rate ∧
    (b.insert_sample n s).length = b.length := by
  simp only [SampleBuffer.insert_sample]
  split <;> simp

theorem updateFirst_map_eq {α β : Type} (p : α → Bool) (f : α → α) (proj : α → β)
    (h : ∀ x, proj (f x) = proj x) :
    ∀ l : List α, (updateFirst p f l).map proj = l.map proj := by
  intro l
  induction l with
  | nil => rfl
  | cons x xs ih =>
    simp only [updateFirst]
    split <;> simp [h, ih]

theorem QueueWF_of_map_eq (sample_rate buffer_length : Nat) (q q2 : List SampleBuffer)
    (h : q2.map (fun b => (b.start_time.val, b.sample_rate, b.length)) =
      q.map (fun b => (b.start_time.val, b.sample_rate, b.length)))
    (hwf : QueueWF sample_rate buffer_length q) :
    QueueWF sample_rate buffer_length q2 := by
  obtain ⟨h1, h2⟩ := hwf
  constructor
  · intro b hb
    have hm : (b.start_time.val, b.sample_rate, b.length)
        ∈ q.map (fun b => (b.start_time.val, b.sample_rate, b.length)) := by
      rw [← h]
      exact List.mem_map_of_mem _ hb
    obtain ⟨a, ha, heq⟩ := List.mem_map.1 hm
    simp only [Prod.mk.injEq] at heq
    obtain ⟨e1, e2, e3⟩ := heq
    have := h1 a ha
    rw [e1, e2, e3] at this
    exact this
  · have hs : List.Chain' (fun x y : Nat × Nat × Nat => x.1 + buffer_length ≤ y.1)
        (q.map fun b => (b.start_time.val, b.sample_rate, b.length)) :=
      (List.chain'_map _).2 h2
    rw [← h] at hs
    exact (List.chain'_map _).1 hs

theorem queue_insert_WF (sample_rate buffer_length : Nat) (hlen : 0 < buffer_length)
    (hrate : 0 < sample_rate)
    (hdvd : buffer_length ∣ sample_rate) (hrate32 : sample_rate ≤ 2 ^ 32)
    (q : List SampleBuffer) (recv_s recv_ns : Nat) (asdu : Asdu)
    (hs : 1 ≤ recv_s)
    (hbound : recv_s * sample_rate + asdu.smp_cnt + buffer_length < 2 ^ 64)
    (hwf : QueueWF sample_rate buffer_length q) :
    QueueWF sample_rate buffer_length
      (SampleBufferQueue.insert_sample q recv_s recv_ns sample_rate buffer_length asdu) := by
  obtain ⟨m, hm⟩ := hdvd
  have hrate1 : 1 ≤ sample_rate := hrate
  have hs64 : recv_s < 2 ^ 64 := by
    have h1 : recv_s * 1 ≤ recv_s * sample_rate := Nat.mul_le_mul_left _ hrate1
    omega
  simp only [SampleBufferQueue.insert_sample]
  set s2 := (if nsOffsetCond asdu.smp_cnt recv_ns sample_rate then
      (recv_s % 2 ^ 64 + 2 ^ 64 - 1) % 2 ^ 64 else recv_s % 2 ^ 64) with hs2def
  have hs2le : s2 ≤ recv_s := by
    rw [hs2def]
    split <;> omega
  have hT : s2 * sample_rate + asdu.smp_cnt + buffer_length < 2 ^ 64 := by
    have h1 : s2 * sample_rate ≤ recv_s * sample_rate := Nat.mul_le_mul_right _ hs2le
    omega
  have hdivle : asdu.smp_cnt / buffer_length * buffer_length ≤ asdu.smp_cnt :=
    Nat.div_mul_le_self _ _
  have htsval : (s2 * sample_rate + asdu.smp_cnt) % 2 ^ 64
      = s2 * sample_rate + asdu.smp_cnt := Nat.mod_eq_of_lt (by omega)
  have hSval : (s2 * sample_rate + asdu.smp_cnt / buffer_length * buffer_length) % 2 ^ 64
      = s2 * sample_rate + asdu.smp_cnt / buffer_length * buffer_length :=
    Nat.mod_eq_of_lt (by omega)
  have hSmodlen :
      (s2 * sample_rate + asdu.smp_cnt / buffer_length * buffer_length) % buffer_length
        = 0 := by
    have h1 : s2 * sample_rate + asdu.smp_cnt / buffer_length * buffer_length
        = buffer_length * (s2 * m + asdu.smp_cnt / buffer_length) := by
      rw [hm]
      ring
    rw [h1]
    exact Nat.mul_mod_right _ _
  have hmeta : ∀ x : SampleBuffer,
      (fun b : SampleBuffer => (b.start_time.val, b.sample_rate, b.length))
        (x.insert_sample asdu.smp_cnt asdu.sample)
      = (fun b : SampleBuffer => (b.start_time.val, b.sample_rate, b.length)) x := by
    intro x
    obtain ⟨h1, h2, h3⟩ := insert_sample_meta x asdu.smp_cnt asdu.sample
    simp [h1, h2, h3]
  have hnbmeta := insert_sample_meta
    (SampleBuffer.new sample_rate
      (SampleTime.from_seconds_and_samples s2
        (asdu.smp_cnt / buffer_length * buffer_length) sample_rate)
      buffer_length) asdu.smp_cnt asdu.sample
  have hnbprops :
      ((SampleBuffer.new sample_rate
          (SampleTime.from_seconds_and_samples s2
            (asdu.smp_cnt / buffer_length * buffer_length) sample_rate)
          buffer_length).insert_sample asdu.smp_cnt asdu.sample).sample_rate = sample_rate ∧
      ((SampleBuffer.new sample_rate
          (SampleTime.from_seconds_and_samples s2
            (asdu.smp_cnt / buffer_length * buffer_length) sample_rate)
          buffer_length).insert_sample asdu.smp_cnt asdu.sample).length = buffer_length ∧
      ((SampleBuffer.new sample_rate
          (SampleTime.from_seconds_and_samples s2
            (asdu.smp_cnt / buffer_length * buffer_length) sample_rate)
          buffer_length).insert_sample asdu.smp_cnt asdu.sample).start_time.val
        % buffer_length = 0 ∧
      ((SampleBuffer.new sample_rate
          (SampleTime.from_seconds_and_samples s2
            (asdu.smp_cnt / buffer_length * buffer_length) sample_rate)
          buffer_length).insert_sample asdu.smp_cnt asdu.sample).start_time.val
        + buffer_length < 2 ^ 64 := by
    rw [hnbmeta.1, hnbmeta.2.1, hnbmeta.2.2]
    refine ⟨rfl, rfl, ?_, ?_⟩
    · show (s2 * sample_rate + asdu.smp_cnt / buffer_length * buffer_length) % 2 ^ 64
        % buffer_length = 0
      rw [hSval]
      exact hSmodlen
    · show (s2 * sample_rate + asdu.smp_cnt / buffer_length * buffer_length) % 2 ^ 64
        + buffer_length < 2 ^ 64
      rw [hSval]
      omega
  cases hq : q.getLast? with
  | none =>
    dsimp only
    constructor
    · intro b hb
      simp only [List.mem_singleton] at hb
      subst hb
      exact hnbprops
    · exact List.chain'_singleton _
  | some back =>
    dsimp only
    have hback := getLast?_mem_list hq
    obtain ⟨hbrate, hblen, hbmod, hbbound⟩ := hwf.1 back hback
    split
    · rename_i hafter
      have hKT : back.start_time.val + buffer_length
          ≤ s2 * sample_rate + asdu.smp_cnt := by
        simp only [SampleBuffer.is_sample_after_timespan, SampleTime.add_samples,
          decide_eq_true_eq] at hafter
        rw [hblen, Nat.mod_eq_of_lt (by omega)] at hafter
        calc back.start_time.val + buffer_length
            ≤ (s2 * sample_rate + asdu.smp_cnt) % 2 ^ 64 := hafter
          _ = s2 * sample_rate + asdu.smp_cnt := htsval
      have hKS : back.start_time.val + buffer_length
          ≤ s2 * sample_rate + asdu.smp_cnt / buffer_length * buffer_length := by
        have hKdvd : buffer_length ∣ back.start_time.val + buffer_length :=
          Nat.dvd_add (Nat.dvd_of_mod_eq_zero hbmod) dvd_rfl
        have hKdiv : back.start_time.val + buffer_length
            = (back.start_time.val + buffer_length) / buffer_length * buffer_length :=
          (Nat.div_mul_cancel hKdvd).symm
        have hTdiv : (s2 * sample_rate + asdu.smp_cnt) / buffer_length
            = s2 * m + asdu.smp_cnt / buffer_length := by
          rw [hm]
          rw [show s2 * (buffer_length * m) + asdu.smp_cnt
            = asdu.smp_cnt + (s2 * m) * buffer_length by ring]
          rw [Nat.add_mul_div_right _ _ hlen]
          omega
        have hdivmono : (back.start_time.val + buffer_length) / buffer_length
            ≤ (s2 * sample_rate + asdu.smp_cnt) / buffer_length :=
          Nat.div_le_div_right hKT
        calc back.start_time.val + buffer_length
            = (back.start_time.val + buffer_length) / buffer_length * buffer_length :=
              hKdiv
          _ ≤ (s2 * sample_rate + asdu.smp_cnt) / buffer_length * buffer_length :=
              Nat.mul_le_mul_right _ hdivmono
          _ = (s2 * m + asdu.smp_cnt / buffer_length) * buffer_length := by rw [hTdiv]
          _ = s2 * sample_rate + asdu.smp_cnt / buffer_length * buffer_length := by
              rw [hm]
              ring
      constructor
      · intro b hb
        rcases List.mem_append.1 hb with hold | hnew
        · exact hwf.1 b hold
        · simp only [List.mem_singleton] at hnew
          subst hnew
          exact hnbprops
      · rw [List.chain'_append]
        refine ⟨hwf.2, List.chain'_singleton _, ?_⟩
        intro x hx y hy
        have hxb : x = back := by
          rw [hq] at hx
          exact (by simpa using hx : back = x).symm
        have hynb : y = (SampleBuffer.new sample_rate
            (SampleTime.from_seconds_and_samples s2
              (asdu.smp_cnt / buffer_length * buffer_length) sample_rate)
            buffer_length).insert_sample asdu.smp_cnt asdu.sample := by
          exact (by simpa using hy : _ = y).symm
        subst hxb
        subst hynb
        rw [hnbmeta.1]
        show x.start_time.val + buffer_length
          ≤ (s2 * sample_rate + asdu.smp_cnt / buffer_length * buffer_length) % 2 ^ 64
        rw [hSval]
        exact hKS
    · apply QueueWF_of_map_eq sample_rate buffer_length q _ _ hwf
      rw [List.map_reverse,
        updateFirst_map_eq _ _ _ hmeta,
        ← List.map_reverse, List.reverse_reverse]

theorem runQueueInserts_WF (sample_rate buffer_length : Nat) (hlen : 0 < buffer_length)
    (hrate : 0 < sample_rate) (hdvd : buffer_length ∣ sample_rate)
    (hrate32 : sample_rate ≤ 2 ^ 32) :
    ∀ (calls : List (Nat × Nat × Asdu)) (q : List SampleBuffer),
    QueueWF sample_rate buffer_length q →
    (∀ c ∈ calls, 1 ≤ c.1 ∧
      c.1 * sample_rate + c.2.2.smp_cnt + buffer_length < 2 ^ 64) →
    QueueWF sample_rate buffer_length
      (calls.foldl
        (fun q c =>
          SampleBufferQueue.insert_sample q c.1 c.2.1 sample_rate buffer_length c.2.2) q) := by
  intro calls
  induction calls with
  | nil => intro q hq _; exact hq
  | cons c rest ih =>
    intro q hq hcalls
    have hc := hcalls c (by simp)
    exact ih _
      (queue_insert_WF sample_rate buffer_length hlen hrate hdvd hrate32 q c.1 c.2.1 c.2.2
        hc.1 hc.2 hq)
      (fun d hd => hcalls d (by simp [hd]))

/-- C2 (amended): starting from an empty queue, after any sequence of
`insert_sample` calls with a fixed positive sample rate (< 2^32) and a
positive buffer length dividing it, provided every call has `recv_s ≥ 1` and
`recv_s * rate + smp_cnt + length < 2^64` (so no `u64` wrap occurs), the
queue's buffers have strictly ascending, non-overlapping `start_time` spans
and every buffer's `subsec_samples(rate)` is a multiple of `length`. -/
theorem C2_queue_monotone_aligned_amended (sample_rate buffer_length : Nat)
    (calls : List (Nat × Nat × Asdu))
    (hlen : 0 < buffer_length) (hrate : 0 < sample_rate)
    (hdvd : buffer_length ∣ sample_rate) (hrate32 : sample_rate ≤ 2 ^ 32)
    (hcalls : ∀ c ∈ calls, 1 ≤ c.1 ∧
      c.1 * sample_rate + c.2.2.smp_cnt + buffer_length < 2 ^ 64) :
    List.Chain'
      (fun a b => a.start_time.val + buffer_length ≤ b.start_time.val ∧
        a.start_time.val < b.start_time.val)
      (runQueueInserts sample_rate buffer_length calls) ∧
    ∀ b ∈ runQueueInserts sample_rate buffer_length calls,
      b.start_time.subsec_samples sample_rate % buffer_length = 0 := by
  have hwf := runQueueInserts_WF sample_rate buffer_length hlen hrate hdvd hrate32
    calls [] ⟨by simp, by simp⟩ hcalls
  rw [show (calls.foldl
      (fun q c =>
        SampleBufferQueue.insert_sample q c.1 c.2.1 sample_rate buffer_length c.2.2) [])
    = runQueueInserts sample_rate buffer_length calls from rfl] at hwf
  constructor
  · exact hwf.2.imp (fun a b h => ⟨h, by omega⟩)
  · intro b hb
    obtain ⟨_, _, hmod, _⟩ := hwf.1 b hb
    have h1 : b.start_time.val % sample_rate < 2 ^ 32 := by
      have := Nat.mod_lt b.start_time.val hrate
      omega
    simp only [SampleTime.subsec_samples]
    rw [Nat.mod_eq_of_lt h1, Nat.mod_mod_of_dvd _ hdvd]
    exact hmod

set_option maxRecDepth 8000 in
theorem C2_queue_monotone_aligned_amended_witness :
    List.Chain'
      (fun a b => a.start_time.val + 40 ≤ b.start_time.val ∧
        a.start_time.val < b.start_time.val)
      (runQueueInserts 4000 40 [(100, 1000, asduWithCnt 3999), (101, 1000, asduWithCnt 0)]) :=
  (C2_queue_monotone_aligned_amended 4000 40
    [(100, 1000, asduWithCnt 3999), (101, 1000, asduWithCnt 0)]
    (by decide) (by decide) (by decide) (by decide) (by decide)).1

set_option maxRecDepth 8000 in
/-- C2 (counterexample): with `recv_s = 2^64 - 1` the `u64` computation
`recv_s * rate + smp_cnt` wraps, and the single buffer created by
`insert_sample` has `subsec_samples(4000) % 40 = 16 ≠ 0`, violating window
alignment as stated for arbitrary call sequences. -/
theorem C2_queue_alignment_counterexample :
    (SampleBufferQueue.insert_sample [] (2 ^ 64 - 1) 1 4000 40 (asduWithCnt 0)).map
      (fun b => b.start_time.subsec_samples 4000 % 40) = [16] := by
  decide

set_option maxRecDepth 8000 in
/-- C9 (counterexample): at `rate = 4800` and `subsec_samples = 39` the exact
value `39 * 1e6 / 4800 = 8125` is an integer, but the single-precision
computation in `to_date_time` yields microseconds `8124`, so the microseconds
are not the exact integer truncation of `subsec * 1e6 / rate`. -/
theorem C9_microseconds_counterexample :
    ((SampleTime.mk 39).to_date_time 4800).2.2.2.2.2.2 = 8124 ∧
    39 * 1000000 / 4800 = 8125 := by
  constructor
  · decide
  · decide

/-- C9 (amended): the microseconds component rendered in `<Time>` equals the
single-precision evaluation `(subsec_samples as f32 / rate as f32 * 1e6)`
truncated toward zero — which can differ from the exact truncation of
`subsec * 1e6 / rate` (see the counterexample). -/
theorem C9_microseconds_amended (st : SampleTime) (sample_rate : Nat) :
    (st.to_date_time sample_rate).2.2.2.2.2.2 =
      (fpToInt 0 (2 ^ 32 - 1)
        (f32mul (f32div (f32ofNat (st.val % sample_rate)) (f32ofNat sample_rate))
          (.fin 1000000))).toNat := rfl

set_option maxRecDepth 8000 in
/-- C6 (counterexample): with `smp_cnt = 29`, `rate = 58`,
`recv_ns = 500000000` the exact value `smp_cnt * 1e9 / rate` equals
`recv_ns`, so the claim requires the previous second to be used; but the
`f64` product rounds just below `5e8`, the code does not decrement, and the
buffer created from second 100 starts at `100 * 58 + 29`. -/
theorem C6_timestamp_correction_counterexample :
    (29 * 1000000000 : ℚ) / 58 ≥ 500000000 ∧
    (SampleBufferQueue.insert_sample [] 100 500000000 58 29 (asduWithCnt 29)).map
      (fun b => b.start_time.val) = [100 * 58 + 29] := by
  constructor
  · norm_num
  · decide

set_option maxRecDepth 8000 in
/-- C6 (amended): the capture second is decremented exactly when the
`f64`-computed `ns_offset = smp_cnt * (1e9 / rate)` is `≥ recv_ns`
(`nsOffsetCond`); on an empty queue the created buffer starts at
`(recv_s - 1 or recv_s) * rate + smp_cnt aligned down`, and in the spec's
concrete scenario (`rate=4000`, `smp_cnt=3999`, `recv_ns=1000`, `recv_s=100`)
the condition holds and the timestamp is `99 * 4000 + 3999`. -/
theorem C6_timestamp_correction_amended (recv_s recv_ns sample_rate buffer_length : Nat)
    (asdu : Asdu) (h1 : 1 ≤ recv_s) (hrate : 0 < sample_rate)
    (h2 : recv_s * sample_rate + asdu.smp_cnt < 2 ^ 64) (h3 : 0 < buffer_length) :
    (SampleBufferQueue.insert_sample [] recv_s recv_ns sample_rate buffer_length asdu).map
      (fun b => b.start_time.val)
      = [(if nsOffsetCond asdu.smp_cnt recv_ns sample_rate then recv_s - 1 else recv_s)
          * sample_rate + asdu.smp_cnt / buffer_length * buffer_length] ∧
    nsOffsetCond 3999 1000 4000 = true ∧
    SampleTime.from_seconds_and_samples (100 - 1) 3999 4000 = ⟨99 * 4000 + 3999⟩ := by
  have hs64 : recv_s < 2 ^ 64 := by
    have h4 : recv_s * 1 ≤ recv_s * sample_rate := Nat.mul_le_mul_left _ hrate
    omega
  have hdm : asdu.smp_cnt / buffer_length * buffer_length ≤ asdu.smp_cnt :=
    Nat.div_mul_le_self _ _
  refine ⟨?_, by decide, by decide⟩
  simp only [SampleBufferQueue.insert_sample, List.getLast?]
  simp only [List.map_cons, List.map_nil]
  rw [(insert_sample_meta _ _ _).1]
  simp only [SampleBuffer.new, SampleTime.from_seconds_and_samples]
  by_cases hc : nsOffsetCond asdu.smp_cnt recv_ns sample_rate
  · have e1 : (recv_s % 2 ^ 64 + 2 ^ 64 - 1) % 2 ^ 64 = recv_s - 1 := by omega
    have e2 : (recv_s - 1) * sample_rate ≤ recv_s * sample_rate :=
      Nat.mul_le_mul_right _ (by omega)
    simp only [hc, if_true, e1]
    rw [Nat.mod_eq_of_lt (by omega)]
  · have hcc : ¬ (nsOffsetCond asdu.smp_cnt recv_ns sample_rate = true) := by
      simp [hc]
    rw [if_neg hcc, if_neg hcc, Nat.mod_eq_of_lt hs64, Nat.mod_eq_of_lt (by omega)]


set_option maxRecDepth 8000 in
theorem C6_timestamp_correction_amended_witness :
    (SampleBufferQueue.insert_sample [] 100 1000 4000 40 (asduWithCnt 3999)).map
      (fun b => b.start_time.val)
      = [(if nsOffsetCond (asduWithCnt 3999).smp_cnt 1000 4000 then 100 - 1 else 100)
          * 4000 + (asduWithCnt 3999).smp_cnt / 40 * 40] ∧
    nsOffsetCond 3999 1000 4000 = true ∧
    SampleTime.from_seconds_and_samples (100 - 1) 3999 4000 = ⟨99 * 4000 + 3999⟩ :=
  C6_timestamp_correction_amended 100 1000 4000 40 (asduWithCnt 3999)
    (by decide) (by decide) (by decide) (by decide)

theorem natLog2Go_spec : ∀ (fuel n : Nat), 1 ≤ n → n ≤ fuel →
    2 ^ natLog2Go fuel n ≤ n ∧ n < 2 ^ (natLog2Go fuel n + 1) := by
  intro fuel
  induction fuel with
  | zero => intro n h1 h2; omega
  | succ f ih =>
    intro n h1 h2
    simp only [natLog2Go]
    split
    · rename_i hlt
      simp only [pow_zero, pow_one]
      omega
    · rename_i hge
      obtain ⟨ha, hb⟩ := ih (n / 2) (by omega) (by omega)
      have e1 : (2 : ℕ) ^ (1 + natLog2Go f (n / 2)) = 2 * 2 ^ natLog2Go f (n / 2) := by
        rw [pow_add, pow_one, Nat.mul_comm]
      have e2 : (2 : ℕ) ^ (1 + natLog2Go f (n / 2) + 1)
          = 2 * 2 ^ (natLog2Go f (n / 2) + 1) := by
        rw [show 1 + natLog2Go f (n / 2) + 1 = 1 + (natLog2Go f (n / 2) + 1) by omega,
          pow_add, pow_one, Nat.mul_comm]
      rw [e1, e2]
      omega

theorem natLog2_spec (n : Nat) (h : 1 ≤ n) :
    2 ^ natLog2 n ≤ n ∧ n < 2 ^ (natLog2 n + 1) :=
  natLog2Go_spec n n h le_rfl

theorem pairLtPow2_spec (n d : Nat) (hd : 0 < d) (e : ℤ) :
    pairLtPow2 n d e = true ↔ (n : ℚ) / d < (2 : ℚ) ^ e := by
  have hdq : (0 : ℚ) < d := by exact_mod_cast hd
  unfold pairLtPow2
  split
  · rename_i he
    obtain ⟨k, rfl⟩ := Int.eq_ofNat_of_zero_le he
    rw [decide_eq_true_eq, div_lt_iff hdq]
    rw [Int.toNat_natCast, zpow_natCast]
    constructor
    · intro h
      calc (n : ℚ) < ((d * 2 ^ k : ℕ) : ℚ) := by exact_mod_cast h
        _ = 2 ^ k * d := by push_cast; ring
    · intro h
      have hq : ((n : ℕ) : ℚ) < ((d * 2 ^ k : ℕ) : ℚ) := by
        calc ((n : ℕ) : ℚ) < 2 ^ k * d := h
          _ = ((d * 2 ^ k : ℕ) : ℚ) := by push_cast; ring
      exact_mod_cast hq
  · rename_i he
    rw [decide_eq_true_eq]
    set m := (-e).toNat with hm
    have hme : e = -(m : ℤ) := by omega
    rw [hme, zpow_neg]
    rw [show ((2 : ℚ) ^ ((m : ℕ) : ℤ) : ℚ) = 2 ^ m from zpow_natCast 2 m]
    rw [div_lt_iff hdq, inv_mul_eq_div, lt_div_iff (by positivity)]
    constructor
    · intro h
      calc (n : ℚ) * 2 ^ m = ((n * 2 ^ m : ℕ) : ℚ) := by push_cast; ring
        _ < d := by exact_mod_cast h
    · intro h
      have hq : ((n * 2 ^ m : ℕ) : ℚ) < ((d : ℕ) : ℚ) := by
        calc ((n * 2 ^ m : ℕ) : ℚ) = (n : ℚ) * 2 ^ m := by push_cast; ring
          _ < d := h
      exact_mod_cast hq

theorem pairLog2_spec (n d : Nat) (hn : 1 ≤ n) (hd : 1 ≤ d) :
    (2 : ℚ) ^ pairLog2 n d ≤ (n : ℚ) / d ∧ (n : ℚ) / d < 2 ^ (pairLog2 n d + 1) := by
  simp only [pairLog2]
  obtain ⟨hn1, hn2⟩ := natLog2_spec n hn
  obtain ⟨hd1, hd2⟩ := natLog2_spec d hd
  set a := natLog2 n with ha
  set b := natLog2 d with hb
  have hdq : (0 : ℚ) < d := by exact_mod_cast hd
  have hnq : (0 : ℚ) < n := by exact_mod_cast hn
  have htwo : (2 : ℚ) ≠ 0 := by norm_num
  have hn1q : (2 : ℚ) ^ ((a : ℕ) : ℤ) ≤ n := by
    rw [zpow_natCast]; exact_mod_cast hn1
  have hn2q : (n : ℚ) < 2 ^ (((a : ℕ) : ℤ) + 1) := by
    rw [show (((a : ℕ) : ℤ) + 1) = ((a + 1 : ℕ) : ℤ) by push_cast; ring, zpow_natCast]
    exact_mod_cast hn2
  have hd1q : (2 : ℚ) ^ ((b : ℕ) : ℤ) ≤ d := by
    rw [zpow_natCast]; exact_mod_cast hd1
  have hd2q : (d : ℚ) < 2 ^ (((b : ℕ) : ℤ) + 1) := by
    rw [show (((b : ℕ) : ℤ) + 1) = ((b + 1 : ℕ) : ℤ) by push_cast; ring, zpow_natCast]
    exact_mod_cast hd2
  have hU : (n : ℚ) / d < 2 ^ ((a : ℤ) - b + 1) := by
    rw [div_lt_iff hdq]
    calc (n : ℚ) < 2 ^ (((a : ℕ) : ℤ) + 1) := hn2q
      _ = 2 ^ ((a : ℤ) - b + 1) * 2 ^ ((b : ℕ) : ℤ) := by
          rw [← zpow_add₀ htwo]
          congr 1
          ring
      _ ≤ 2 ^ ((a : ℤ) - b + 1) * d := by
          exact mul_le_mul_of_nonneg_left hd1q (by positivity)
  have hL : 2 ^ ((a : ℤ) - b - 1) < (n : ℚ) / d := by
    rw [lt_div_iff hdq]
    calc 2 ^ ((a : ℤ) - b - 1) * (d : ℚ)
        < 2 ^ ((a : ℤ) - b - 1) * 2 ^ (((b : ℕ) : ℤ) + 1) := by
          exact mul_lt_mul_of_pos_left hd2q (by positivity)
      _ = 2 ^ ((a : ℕ) : ℤ) := by
          rw [← zpow_add₀ htwo]
          congr 1
          ring
      _ ≤ n := hn1q
  by_cases hcase : pairLtPow2 n d ((a : ℤ) - b) = true
  · rw [if_pos hcase]
    have hlt := (pairLtPow2_spec n d (by omega) _).mp hcase
    refine ⟨le_of_lt ?_, ?_⟩
    · exact hL
    · rw [show ((a : ℤ) - b - 1 + 1) = (a : ℤ) - b by ring]
      exact hlt
  · rw [if_neg hcase]
    have hge : ¬ ((n : ℚ) / d < 2 ^ ((a : ℤ) - b)) := fun hx =>
      hcase ((pairLtPow2_spec n d (by omega) _).mpr hx)
    exact ⟨le_of_not_lt hge, hU⟩

theorem pairFloor_eq_floor (num : ℤ) (den : ℕ) :
    pairFloor num den = ⌊(num : ℚ) / (den : ℚ)⌋ :=
  (Rat.floor_intCast_div_natCast num den).symm

theorem rhePair_spec (num : ℤ) (den : ℕ) (hd : 0 < den) :
    |((rhePair num den : ℤ) : ℚ) - (num : ℚ) / den| ≤ 1 / 2 := by
  have hdq : (0 : ℚ) < den := by exact_mod_cast hd
  have hdne : (den : ℚ) ≠ 0 := ne_of_gt hdq
  simp only [rhePair]
  set f := pairFloor num den with hfdef
  have hfl : f = ⌊(num : ℚ) / den⌋ := pairFloor_eq_floor num den
  set x : ℚ := (num : ℚ) / den with hxdef
  have hx0 : (0 : ℚ) ≤ x - f := by
    rw [hfl]
    have h := Int.floor_le x
    linarith
  have hx1 : x - f < 1 := by
    rw [hfl]
    have h := Int.lt_floor_add_one x
    push_cast at h ⊢
    linarith
  have hxden : x * den = num := div_mul_cancel₀ _ hdne
  have hrem : ((num - f * den : ℤ) : ℚ) = (x - f) * den := by
    push_cast
    rw [sub_mul, hxden]
  split_ifs with h1 h2 h3
  · have hc : 2 * ((x - f) * den) < (den : ℚ) := by
      have hc0 : ((2 * (num - f * den) : ℤ) : ℚ) < ((den : ℕ) : ℚ) := by exact_mod_cast h1
      rw [Int.cast_mul, hrem] at hc0
      simpa using hc0
    have hlt : x - f < 1 / 2 := by
      by_contra hcon
      push_neg at hcon
      have h5 : (1 / 2 : ℚ) * den ≤ (x - f) * den :=
        mul_le_mul_of_nonneg_right hcon (le_of_lt hdq)
      linarith
    rw [abs_le]
    constructor <;> linarith
  · have hc : (den : ℚ) < 2 * ((x - f) * den) := by
      have hc0 : ((den : ℕ) : ℚ) < ((2 * (num - f * den) : ℤ) : ℚ) := by exact_mod_cast h2
      rw [Int.cast_mul, hrem] at hc0
      simpa using hc0
    have hgt : 1 / 2 < x - f := by
      by_contra hcon
      push_neg at hcon
      have h5 : (x - f) * den ≤ (1 / 2 : ℚ) * den :=
        mul_le_mul_of_nonneg_right hcon (le_of_lt hdq)
      linarith
    push_cast
    rw [abs_le]
    constructor <;> linarith
  · have hte : 2 * (num - f * den) = (den : ℤ) := by omega
    have hc : 2 * ((x - f) * den) = (den : ℚ) := by
      have hc0 : ((2 * (num - f * den) : ℤ) : ℚ) = ((den : ℕ) : ℚ) := by exact_mod_cast hte
      rw [Int.cast_mul, hrem] at hc0
      simpa using hc0
    have heq : x - f = 1 / 2 := by
      have h6 : (2 * (x - f)) * den = 1 * den := by linarith [hc]
      have h7 := mul_right_cancel₀ hdne h6
      linarith
    rw [abs_le]
    constructor <;> linarith
  · have hte : 2 * (num - f * den) = (den : ℤ) := by omega
    have hc : 2 * ((x - f) * den) = (den : ℚ) := by
      have hc0 : ((2 * (num - f * den) : ℤ) : ℚ) = ((den : ℕ) : ℚ) := by exact_mod_cast hte
      rw [Int.cast_mul, hrem] at hc0
      simpa using hc0
    have heq : x - f = 1 / 2 := by
      have h6 : (2 * (x - f)) * den = 1 * den := by linarith [hc]
      have h7 := mul_right_cancel₀ hdne h6
      linarith
    push_cast
    rw [abs_le]
    constructor <;> linarith

theorem rhePair_abs_le (num : ℤ) (den : ℕ) (hd : 0 < den) (N : ℤ)
    (hN : |(num : ℚ) / den| ≤ (N : ℚ)) : |rhePair num den| ≤ N := by
  have h1 := rhePair_spec num den hd
  have habs := abs_sub_abs_le_abs_sub ((rhePair num den : ℤ) : ℚ) ((num : ℚ) / den)
  by_contra hcon
  push_neg at hcon
  have h3 : N + 1 ≤ |rhePair num den| := by omega
  have h4 : ((N : ℤ) : ℚ) + 1 ≤ |((rhePair num den : ℤ) : ℚ)| := by exact_mod_cast h3
  linarith

theorem roundPair_bounded (prec : ℕ) (emin expTop : ℤ) (num : ℤ) (den : ℕ) (N : ℕ)
    (hprec : 1 ≤ prec) (hden : 0 < den) (hN1 : 1 ≤ N) (hNp : N < 2 ^ prec)
    (hemin : emin ≤ 0) (hexpTop : 0 ≤ expTop) (hNtop : N < 2 ^ expTop.toNat)
    (h : |(num : ℚ) / den| ≤ (N : ℚ)) :
    ∃ r : ℚ, roundPair prec emin expTop num den = .fin r ∧ |r| ≤ (N : ℚ) := by
  by_cases hz : num = 0
  · refine ⟨0, by simp [roundPair, hz], by simpa using (by positivity : (0 : ℚ) ≤ (N : ℚ))⟩
  · simp only [roundPair, if_neg hz]
    set e := pairLog2 num.natAbs den with he
    set expo := max (e - ((prec : ℤ) - 1)) emin with hexpo
    have hnum1 : 1 ≤ num.natAbs := by omega
    obtain ⟨hlog1, hlog2⟩ := pairLog2_spec num.natAbs den hnum1 hden
    have habs : ((num.natAbs : ℕ) : ℚ) / den = |(num : ℚ) / den| := by
      rw [abs_div]
      congr 1
      · rw [Int.cast_natAbs, Int.cast_abs]
      · exact (abs_of_nonneg (by positivity)).symm
    have hepb : e ≤ (prec : ℤ) - 1 := by
      by_contra hcon
      push_neg at hcon
      have h8 : (2 : ℚ) ^ ((prec : ℕ) : ℤ) ≤ 2 ^ e := by
        apply zpow_le_zpow_right₀ one_le_two (by omega)
      have h9 : (2 : ℚ) ^ e ≤ |(num : ℚ) / den| := habs ▸ hlog1
      have h11 : ((N : ℕ) : ℚ) < 2 ^ ((prec : ℕ) : ℤ) := by
        rw [zpow_natCast]
        exact_mod_cast hNp
      linarith
    have hexpo0 : expo ≤ 0 := by
      rw [hexpo]
      exact max_le (by omega) hemin
    set k := (-expo).toNat with hk
    set m := (if 0 ≤ expo then rhePair num (den * 2 ^ expo.toNat)
              else rhePair (num * 2 ^ k) den) with hm
    have hmb : |m| ≤ (N : ℤ) * 2 ^ k := by
      by_cases hle : 0 ≤ expo
      · have hz0 : expo = 0 := le_antisymm hexpo0 hle
        have hk0 : k = 0 := by omega
        rw [hm, if_pos hle, hz0]
        simp only [Int.toNat_zero, pow_zero, mul_one]
        rw [hk0, pow_zero, mul_one]
        exact rhePair_abs_le num den hden (N : ℤ) (by exact_mod_cast h)
      · rw [hm, if_neg hle]
        apply rhePair_abs_le _ den hden
        have hval : ((num * 2 ^ k : ℤ) : ℚ) / den = ((num : ℚ) / den) * 2 ^ k := by
          push_cast
          ring
        rw [hval, abs_mul, abs_of_nonneg (by positivity : (0 : ℚ) ≤ (2 : ℚ) ^ k)]
        push_cast
        exact mul_le_mul_of_nonneg_right h (by positivity)
    have hofl : ¬ (2 ^ (expTop - expo).toNat ≤ m.natAbs) := by
      intro hcon2
      have htn : (expTop - expo).toNat = expTop.toNat + k := by omega
      have h12 : ((2 : ℤ) ^ (expTop.toNat + k)) ≤ (m.natAbs : ℤ) := by
        rw [← htn]
        exact_mod_cast hcon2
      rw [Int.abs_eq_natAbs] at hmb
      have h14 : (N : ℤ) < 2 ^ expTop.toNat := by exact_mod_cast hNtop
      have h15 : (N : ℤ) * 2 ^ k < 2 ^ expTop.toNat * 2 ^ k :=
        mul_lt_mul_of_pos_right h14 (by positivity)
      rw [← pow_add] at h15
      linarith
    rw [if_neg hofl]
    by_cases hle : 0 ≤ expo
    · have hz0 : expo = 0 := le_antisymm hexpo0 hle
      have hk0 : k = 0 := by omega
      rw [if_pos hle]
      refine ⟨mkRat (m * 2 ^ expo.toNat) 1, rfl, ?_⟩
      rw [hz0]
      simp only [Int.toNat_zero, pow_zero, mul_one, Rat.mkRat_one]
      have h16 : |m| ≤ (N : ℤ) := by
        rw [hk0, pow_zero, mul_one] at hmb
        exact hmb
      exact_mod_cast h16
    · rw [if_neg hle]
      refine ⟨mkRat m (2 ^ k), rfl, ?_⟩
      rw [Rat.mkRat_eq_div, abs_div,
        abs_of_nonneg (by positivity : (0 : ℚ) ≤ ((2 ^ k : ℕ) : ℚ)),
        div_le_iff (by positivity)]
      exact_mod_cast hmb

theorem b64inv_b64char : ∀ s, s < 64 → b64inv (b64char s) = some s := by decide

theorem b64char_ne_61 : ∀ s, s < 64 → b64char s ≠ 61 := by decide

theorem base64_roundtrip_aux : ∀ (n : ℕ) (bs : List ℕ), bs.length ≤ n →
    (∀ b ∈ bs, b < 256) → base64decode (base64encode bs) = some bs := by
  intro n
  induction n with
  | zero =>
    intro bs hlen _
    match bs with
    | [] => rfl
    | b :: bs' => simp at hlen
  | succ n ih =>
    intro bs hlen hb
    match bs with
    | [] => rfl
    | [b0] =>
      have h0 : b0 < 256 := hb b0 (by simp)
      simp only [base64encode, base64decode]
      rw [b64inv_b64char _ (by omega), b64inv_b64char _ (by omega)]
      dsimp only
      rw [if_pos (by simp)]
      simp only [Option.some.injEq, List.cons.injEq, and_true]
      omega
    | [b0, b1] =>
      have h0 : b0 < 256 := hb b0 (by simp)
      have h1 : b1 < 256 := hb b1 (by simp)
      simp only [base64encode, base64decode]
      rw [b64inv_b64char _ (by omega), b64inv_b64char _ (by omega)]
      dsimp only
      rw [if_neg (fun hcc => absurd hcc.1 (b64char_ne_61 _ (by omega)))]
      rw [if_pos (by simp)]
      rw [b64inv_b64char _ (by omega)]
      dsimp only
      simp only [Option.some.injEq, List.cons.injEq, and_true]
      exact ⟨by omega, by omega⟩
    | b0 :: b1 :: b2 :: rest =>
      have h0 : b0 < 256 := hb b0 (by simp)
      have h1 : b1 < 256 := hb b1 (by simp)
      have h2 : b2 < 256 := hb b2 (by simp)
      have hrest : base64decode (base64encode rest) = some rest := by
        apply ih rest (by simp at hlen; omega)
        intro b hbmem
        exact hb b (by simp [hbmem])
      simp only [base64encode, base64decode]
      rw [b64inv_b64char _ (by omega), b64inv_b64char _ (by omega)]
      dsimp only
      rw [if_neg (fun hcc => absurd hcc.1 (b64char_ne_61 _ (by omega)))]
      rw [if_neg (fun hcc => absurd hcc.1 (b64char_ne_61 _ (by omega)))]
      rw [b64inv_b64char _ (by omega), b64inv_b64char _ (by omega)]
      dsimp only
      rw [hrest]
      simp only [Option.map_some', Option.some.injEq, List.cons.injEq]
      refine ⟨by omega, by omega, by omega, trivial⟩

theorem i16beBytes_lt (n : ℤ) : ∀ b ∈ i16beBytes n, b < 256 := by
  intro b hb
  simp only [i16beBytes, List.mem_cons, List.not_mem_nil, or_false] at hb
  have hu : (n % 65536).toNat < 65536 := by omega
  rcases hb with h | h <;> omega

theorem buildChannelBytes_lt (c : SampleBufferChannel) :
    ∀ b ∈ buildChannelBytes c, b < 256 := by
  intro b hb
  unfold buildChannelBytes at hb
  split at hb
  · rw [List.eq_of_mem_replicate hb]
    omega
  · simp only [List.mem_flatten, List.mem_map] at hb
    obtain ⟨l, ⟨v, hv, rfl⟩, hbl⟩ := hb
    exact i16beBytes_lt _ b hbl

theorem qtrunc_abs_le (q : ℚ) (M : ℤ) (h : |q| ≤ (M : ℚ)) :
    -M ≤ qtrunc q ∧ qtrunc q ≤ M := by
  unfold qtrunc
  split
  · rename_i hq
    have h1 : ⌊q⌋ ≤ ⌊(M : ℚ)⌋ := Int.floor_mono (le_trans (le_abs_self q) h)
    rw [Int.floor_intCast] at h1
    have h2 : 0 ≤ ⌊q⌋ := Int.floor_nonneg.mpr hq
    omega
  · rename_i hq
    push_neg at hq
    have habs : -q ≤ (M : ℚ) := le_trans (le_trans (neg_le_abs q) (le_refl _)) h
    have h1 : ⌊-q⌋ ≤ ⌊(M : ℚ)⌋ := Int.floor_mono habs
    rw [Int.floor_intCast] at h1
    have h2 : 0 ≤ ⌊-q⌋ := Int.floor_nonneg.mpr (by linarith)
    omega

theorem channelConverted_max_zero (v : Fp) (h : fpLe (fpAbs v) (.fin 0) = true) :
    channelConverted (.fin 0) v = 0 := by
  cases v with
  | nan => simp [fpAbs, fpLe] at h
  | inf s => simp [fpAbs, fpLe] at h
  | fin q =>
    have hq : q = 0 := by
      have h0 : |q| ≤ 0 := by simpa [fpAbs, fpLe] using h
      exact abs_eq_zero.mp (le_antisymm h0 (abs_nonneg q))
    subst hq
    decide

theorem flatten_zero_pairs : ∀ (l : List Fp) (f : Fp → List ℕ),
    (∀ v ∈ l, f v = [0, 0]) → (l.map f).flatten = List.replicate (l.length * 2) 0 := by
  intro l
  induction l with
  | nil => intro f _; rfl
  | cons x xs ih =>
    intro f hf
    simp only [List.map_cons, List.flatten_cons, hf x (by simp), List.length_cons]
    rw [ih f (fun v hv => hf v (by simp [hv]))]
    rw [show (xs.length + 1) * 2 = xs.length * 2 + 2 by ring]
    rw [show xs.length * 2 + 2 = 2 + xs.length * 2 by ring, List.replicate_add]
    rfl

theorem channelConverted_bound (mx v : Fp) (h : fpLe (fpAbs v) mx = true) :
    -32767 ≤ channelConverted mx v ∧ channelConverted mx v ≤ 32767 := by
  cases v with
  | nan => simp [fpAbs, fpLe] at h
  | inf s =>
    cases mx with
    | nan => simp [fpAbs, fpLe] at h
    | fin q => simp [fpAbs, fpLe] at h
    | inf t =>
      cases t with
      | true => simp [fpAbs, fpLe] at h
      | false =>
        simp only [channelConverted, f32div, fpDiv, f32mul, fpMul, fpToInt]
        exact ⟨by norm_num, by norm_num⟩
  | fin q =>
    cases mx with
    | nan => simp [fpAbs, fpLe] at h
    | inf t =>
      cases t with
      | true => simp [fpAbs, fpLe] at h
      | false =>
        simp only [channelConverted, f32div, fpDiv, f32mul, fpMul]
        decide
    | fin M =>
      have hqM : |q| ≤ M := by simpa [fpAbs, fpLe] using h
      by_cases hM0 : M = 0
      · subst hM0
        have hq : q = 0 := abs_eq_zero.mp (le_antisymm hqM (abs_nonneg q))
        subst hq
        decide
      · have hMpos : 0 < M := lt_of_le_of_ne (le_trans (abs_nonneg q) hqM) (Ne.symm hM0)
        have hMnum : M.num ≠ 0 := Rat.num_ne_zero.mpr hM0
        have hMnumpos : 0 < M.num := Rat.num_pos.mpr hMpos
        have hs1 : M.num.sign = 1 := Int.sign_eq_one_iff_pos.mpr hMnumpos
        have hdenpos : 0 < q.den * M.num.natAbs :=
          Nat.mul_pos q.pos (Int.natAbs_pos.mpr hMnum)
        have hMne : (M : ℚ) ≠ 0 := hM0
        have hfrac : ((q.num * M.den * M.num.sign : ℤ) : ℚ)
            / ((q.den * M.num.natAbs : ℕ) : ℚ) = q / M := by
          push_cast [hs1]
          have hna : ((M.num.natAbs : ℕ) : ℚ) = (M.num : ℚ) := by
            push_cast [Int.cast_natAbs]
            exact abs_of_nonneg (by exact_mod_cast le_of_lt hMnumpos)
          rw [hna, mul_one]
          conv_rhs => rw [← Rat.num_div_den q, ← Rat.num_div_den M]
          have hbne : ((q.den : ℕ) : ℚ) ≠ 0 := Nat.cast_ne_zero.mpr q.den_nz
          have hdne : ((M.den : ℕ) : ℚ) ≠ 0 := Nat.cast_ne_zero.mpr M.den_nz
          have hcne : ((M.num : ℤ) : ℚ) ≠ 0 := by exact_mod_cast hMnum
          field_simp
        simp only [channelConverted, f32div, fpDiv]
        rw [if_neg hM0]
        obtain ⟨r, hr, hrb⟩ := roundPair_bounded 24 (-149) 128
          (q.num * M.den * M.num.sign) (q.den * M.num.natAbs) 1
          (by norm_num) hdenpos (le_refl 1) (by norm_num) (by norm_num) (by norm_num)
          (by decide)
          (by
            rw [hfrac]
            have hq1 : |q / M| ≤ 1 := by
              rw [abs_div, div_le_one (abs_pos.mpr hMne), abs_of_pos hMpos]
              exact hqM
            simpa using hq1)
        rw [hr]
        simp only [f32mul, fpMul]
        rw [show ((32767 : ℚ).num) = 32767 by decide, show ((32767 : ℚ).den) = 1 by decide]
        have hrb1 : |r| ≤ (1 : ℚ) := by simpa using hrb
        have hfrac2 : ((r.num * 32767 : ℤ) : ℚ) / ((r.den * 1 : ℕ) : ℚ) = r * 32767 := by
          push_cast
          rw [mul_one, mul_div_right_comm, Rat.num_div_den]
        obtain ⟨y, hy, hyb⟩ := roundPair_bounded 24 (-149) 128 (r.num * 32767) (r.den * 1)
          32767 (by norm_num) (by have := r.pos; omega) (by norm_num) (by norm_num)
          (by norm_num) (by norm_num) (by decide)
          (by
            rw [hfrac2]
            have habs : |r * (32767 : ℚ)| ≤ 32767 := by
              rw [abs_mul, show |(32767 : ℚ)| = 32767 by norm_num]
              calc |r| * (32767 : ℚ) ≤ 1 * 32767 :=
                    mul_le_mul_of_nonneg_right hrb1 (by norm_num)
                _ = 32767 := by norm_num
            simpa using habs)
        rw [hy]
        simp only [fpToInt]
        obtain ⟨hty1, hty2⟩ := qtrunc_abs_le y 32767 (by exact_mod_cast hyb)
        omega

set_option maxRecDepth 8000 in
/-- C3 (counterexample): the claim states that the decoded payload values equal
the exact truncation `trunc(value / max * 32767)`, but `build_channel` computes
`value / max * 32767.0` in `f32`.  For `value = 32769/65536` (an exact `f32`)
and `max = 1`, the exact product is `32769 * 32767 / 65536 = 16383.999…`, whose
truncation is `16383`, while the `f32` rounding of the product lands exactly on
`16384`; the emitted bytes decode to `16384 ≠ 16383`. -/
theorem C3_payload_roundtrip_counterexample :
    fpLe (fpAbs (.fin (mkRat 32769 65536))) (.fin 1) = true ∧
    channelConverted (.fin 1) (.fin (mkRat 32769 65536)) = 16384 ∧
    base64decode (channelPayload ⟨[.fin (mkRat 32769 65536)], .fin 1⟩) = some [64, 0] ∧
    beVal [64, 0] = 16384 ∧
    (mkRat 32769 65536 : ℚ) / 1 * 32767 = mkRat (32769 * 32767) 65536 ∧
    qtrunc (mkRat (32769 * 32767) 65536) = 16383 ∧
    (16384 : ℤ) ≠ 16383 := by
  refine ⟨by decide, by decide, by decide, by decide, ?_, by decide, by decide⟩
  rw [Rat.mkRat_eq_div, Rat.mkRat_eq_div]
  norm_num

/-- C3 (amended): for a channel whose stored values all satisfy
`|value| ≤ max` (in the Rust `f32` comparison), the Base64 payload decodes to
exactly the concatenation, slot by slot in order, of the two big-endian bytes
of the `f32`-computed conversion `(value / max * 32767.0) as i16`; every
converted value lies in `[-32767, 32767]`, so the two bytes faithfully encode
it as a 16-bit big-endian two's-complement integer; and when `max == 0` every
payload byte is zero. -/
theorem C3_payload_roundtrip_amended (channel : SampleBufferChannel)
    (h : ∀ v ∈ channel.buffer, fpLe (fpAbs v) channel.max = true) :
    base64decode (channelPayload channel) = some (buildChannelBytes channel) ∧
    buildChannelBytes channel
      = (channel.buffer.map fun v => i16beBytes (channelConverted channel.max v)).flatten ∧
    (∀ v ∈ channel.buffer,
      -32767 ≤ channelConverted channel.max v ∧ channelConverted channel.max v ≤ 32767) ∧
    (∀ n : ℤ, -32768 ≤ n → n < 32768 →
      (if 32768 ≤ beVal (i16beBytes n) then (beVal (i16beBytes n) : ℤ) - 65536
       else (beVal (i16beBytes n) : ℤ)) = n) ∧
    (channel.max = .fin 0 → ∀ b ∈ buildChannelBytes channel, b = 0) := by
  refine ⟨?_, ?_, ?_, ?_, ?_⟩
  · simp only [channelPayload]
    exact base64_roundtrip_aux (buildChannelBytes channel).length _ le_rfl
      (buildChannelBytes_lt channel)
  · by_cases hmax : channel.max = .fin 0
    · unfold buildChannelBytes
      rw [if_pos hmax]
      refine (flatten_zero_pairs channel.buffer _ ?_).symm
      intro v hv
      rw [hmax, channelConverted_max_zero v (by rw [← hmax]; exact h v hv)]
      rfl
    · unfold buildChannelBytes
      rw [if_neg hmax]
  · intro v hv
    exact channelConverted_bound channel.max v (h v hv)
  · intro n h0 h1
    have hbe : beVal (i16beBytes n) = (n % 65536).toNat := by
      simp only [i16beBytes, beVal, List.foldl]
      omega
    rw [hbe]
    split <;> omega
  · intro hmax b hb
    unfold buildChannelBytes at hb
    rw [if_pos hmax] at hb
    exact List.eq_of_mem_replicate hb

set_option maxRecDepth 8000 in
theorem C3_payload_roundtrip_amended_witness :
    (let ch : SampleBufferChannel := ⟨[.fin 1, .fin (mkRat (-1) 2)], .fin 1⟩
     base64decode (channelPayload ch) = some (buildChannelBytes ch) ∧
     buildChannelBytes ch
       = (ch.buffer.map fun v => i16beBytes (channelConverted ch.max v)).flatten ∧
     (∀ v ∈ ch.buffer,
       -32767 ≤ channelConverted ch.max v ∧ channelConverted ch.max v ≤ 32767) ∧
     (∀ n : ℤ, -32768 ≤ n → n < 32768 →
       (if 32768 ≤ beVal (i16beBytes n) then (beVal (i16beBytes n) : ℤ) - 65536
        else (beVal (i16beBytes n) : ℤ)) = n) ∧
     (ch.max = .fin 0 → ∀ b ∈ buildChannelBytes ch, b = 0)) :=
  C3_payload_roundtrip_amended ⟨[.fin 1, .fin (mkRat (-1) 2)], .fin 1⟩ (by decide)
